import Mathlib

/-!
# AVL tree of `avlbst.h`

The pointer structure of the source (nodes with `parent_`, `left_`, `right_` links and an
`int8_t balance_`) is rendered as an inductive binary tree. A walk that follows the parent
links upward (`insertFix`, `removeFix`) is rendered with the list of the ancestors of the
current node, nearest first: every ancestor is a `Frame` that remembers on which side the
current subtree hangs and what the other subtree is. A null dereference of the source is the
result `none`.
-/

namespace AVLTree

/-- An `AVLNode<Key, Value>*`: either the null pointer or a node with its two subtrees, its
key, its value and its stored `balance_`. -/
inductive AVLNode (K V : Type) where
  | nil : AVLNode K V
  | node (left : AVLNode K V) (key : K) (value : V) (balance : Int) (right : AVLNode K V) :
      AVLNode K V
  deriving DecidableEq

open AVLNode

/-- Conversion of an `int` to `int8_t` (two's complement). -/
def wrap8 (x : Int) : Int := (x + 128) % 256 - 128

/-- On which side of its parent a node hangs (`parent->getLeft() == node` or not). -/
inductive Side where
  | left : Side
  | right : Side
  deriving DecidableEq

/-- An ancestor seen from below: `side` is the side on which the current subtree hangs,
`sibling` is the ancestor's other subtree. -/
structure Frame (K V : Type) where
  side : Side
  key : K
  value : V
  balance : Int
  sibling : AVLNode K V

variable {K V : Type}

/-- `AVLNode::getBalance`. -/
def getBalance : AVLNode K V → Int
  | nil => 0
  | node _ _ _ b _ => b

/-- `AVLNode::setBalance`. -/
def setBalance (b : Int) : AVLNode K V → AVLNode K V
  | nil => nil
  | node l k v _ r => node l k v b r

/-- `AVLNode::updateBalance`: `balance_ += diff` on an `int8_t`. -/
def updateBalance (diff : Int) : AVLNode K V → AVLNode K V
  | nil => nil
  | node l k v b r => node l k v (wrap8 (b + diff)) r

/-- `Node::setLeft`. -/
def setLeft (c : AVLNode K V) : AVLNode K V → AVLNode K V
  | nil => nil
  | node _ k v b r => node c k v b r

/-- `Node::setRight`. -/
def setRight (c : AVLNode K V) : AVLNode K V → AVLNode K V
  | nil => nil
  | node l k v b _ => node l k v b c

/-- `setBalance` on the left child of the root of a subtree. -/
def setLeftBalance (b : Int) : AVLNode K V → AVLNode K V
  | nil => nil
  | node l k v b0 r => node (setBalance b l) k v b0 r

/-- `setBalance` on the right child of the root of a subtree. -/
def setRightBalance (b : Int) : AVLNode K V → AVLNode K V
  | nil => nil
  | node l k v b0 r => node l k v b0 (setBalance b r)

/-- The ancestor of a frame with the subtree `t` hung on the frame's side. -/
def Frame.fill (f : Frame K V) (t : AVLNode K V) : AVLNode K V :=
  match f.side with
  | Side.left => node t f.key f.value f.balance f.sibling
  | Side.right => node f.sibling f.key f.value f.balance t

/-- The whole tree: the subtree `t` below the ancestors `path` (nearest ancestor first). -/
def plug : List (Frame K V) → AVLNode K V → AVLNode K V
  | [], t => t
  | f :: rest, t => plug rest (f.fill t)

/-- `AVLTree::rotateLeft` on the subtree rooted at `node`; the update of the parent's child
pointer (or of `root_`) is the place of the result in the surrounding tree. -/
def rotateLeft : AVLNode K V → AVLNode K V
  | node l k v b (node rl rk rv rb rr) => node (node l k v b rl) rk rv rb rr
  | t => t

/-- `AVLTree::rotateRight` on the subtree rooted at `node`. -/
def rotateRight : AVLNode K V → AVLNode K V
  | node (node ll lk lv lb lr) k v b r => node ll lk lv lb (node lr k v b r)
  | t => t

/-- Height of a subtree: the number of nodes on the longest path down to a leaf; the empty
subtree has height 0. -/
def height : AVLNode K V → Nat
  | nil => 0
  | node l _ _ _ r => 1 + max (height l) (height r)

/-- Number of nodes. -/
def size : AVLNode K V → Nat
  | nil => 0
  | node l _ _ _ r => size l + 1 + size r

/-- In-order sequence of the (key, value) entries. -/
def entries : AVLNode K V → List (K × V)
  | nil => []
  | node l k v _ r => entries l ++ (k, v) :: entries r

/-- In-order sequence of the keys. -/
def keys (t : AVLNode K V) : List K := (entries t).map Prod.fst

/-- The descent by key comparison shared by the loop of `insert` and by `internalFind`: it
stops at the node holding `k`, or at the null pointer where `k` would hang, and returns the
ancestors passed on the way. -/
def descend [LinearOrder K] (k : K) : AVLNode K V → List (Frame K V) →
    List (Frame K V) × AVLNode K V
  | nil, path => (path, nil)
  | node l key v b r, path =>
    if k = key then (path, node l key v b r)
    else if k < key then descend k l (⟨Side.left, key, v, b, r⟩ :: path)
    else descend k r (⟨Side.right, key, v, b, l⟩ :: path)

/-- `AVLTree::insertFix(parent, node)`. `parent` is the subtree rooted at the parent (the
node already in it), the list holds the ancestors of `parent`, and the side tells whether
`node` is the left or the right child of `parent`. The result is the whole tree. -/
def insertFix : List (Frame K V) → AVLNode K V → Side → AVLNode K V
  | [], parent, _ => parent
  | g :: rest, parent, nodeSide =>
    match g.side with
    | Side.left =>
      let gb := wrap8 (g.balance + (-1))
      let grand := node parent g.key g.value gb g.sibling
      if gb = 0 then plug rest grand
      else if gb = -1 then insertFix rest grand Side.left
      else if gb = -2 then
        match nodeSide with
        | Side.left =>
          -- rotateRight(grandparent): parent is the root, grandparent its right child
          plug rest (setRightBalance 0 (setBalance 0 (rotateRight grand)))
        | Side.right =>
          -- rotateLeft(parent); rotateRight(grandparent): node is the root,
          -- parent its left child, grandparent its right child
          let sub := rotateRight (setLeft (rotateLeft parent) grand)
          if getBalance sub = -1 then
            plug rest (setBalance 0 (setRightBalance 1 (setLeftBalance 0 sub)))
          else if getBalance sub = 0 then
            plug rest (setBalance 0 (setRightBalance 0 (setLeftBalance 0 sub)))
          else
            plug rest (setBalance 0 (setRightBalance 0 (setLeftBalance (-1) sub)))
      else plug rest grand
    | Side.right =>
      let gb := wrap8 (g.balance + 1)
      let grand := node g.sibling g.key g.value gb parent
      if gb = 0 then plug rest grand
      else if gb = 1 then insertFix rest grand Side.right
      else if gb = 2 then
        match nodeSide with
        | Side.right =>
          -- rotateLeft(grandparent): parent is the root, grandparent its left child
          plug rest (setLeftBalance 0 (setBalance 0 (rotateLeft grand)))
        | Side.left =>
          -- rotateRight(parent); rotateLeft(grandparent): node is the root,
          -- parent its right child, grandparent its left child
          let sub := rotateLeft (setRight (rotateRight parent) grand)
          if getBalance sub = 1 then
            plug rest (setBalance 0 (setLeftBalance (-1) (setRightBalance 0 sub)))
          else if getBalance sub = 0 then
            plug rest (setBalance 0 (setLeftBalance 0 (setRightBalance 0 sub)))
          else
            plug rest (setBalance 0 (setLeftBalance 0 (setRightBalance 1 sub)))
      else plug rest grand

/-- `AVLTree::insert`. -/
def insert [LinearOrder K] (t : AVLNode K V) (k : K) (v : V) : AVLNode K V :=
  match t with
  | nil => node nil k v 0 nil
  | node _ _ _ _ _ =>
    match descend k t [] with
    | (path, node l key _ b r) => plug path (node l key v b r)
    | ([], nil) => node nil k v 0 nil
    | (p :: rest, nil) =>
      let newNode : AVLNode K V := node nil k v 0 nil
      if k < p.key then
        let parent := updateBalance (-1) (setLeft newNode (p.fill nil))
        if getBalance parent ≠ 0 then insertFix rest parent Side.left else plug rest parent
      else
        let parent := updateBalance 1 (setRight newNode (p.fill nil))
        if getBalance parent ≠ 0 then insertFix rest parent Side.right else plug rest parent

/-- `Node::getLeft`. -/
def getLeft : AVLNode K V → AVLNode K V
  | nil => nil
  | node l _ _ _ _ => l

/-- `Node::getRight`. -/
def getRight : AVLNode K V → AVLNode K V
  | nil => nil
  | node _ _ _ _ r => r

/-- Null test on a node pointer. -/
def isNil : AVLNode K V → Bool
  | nil => true
  | node _ _ _ _ _ => false

/-- The `diff` that belongs to a side: `+1` for a left child, `-1` for a right child. -/
def sideDiff : Side → Int
  | Side.left => 1
  | Side.right => -1

/-- `AVLTree::removeFix(node, diff)`. The list holds `node` (its head) and the ancestors of
`node`; `t` is the subtree that hangs below `node` on the side the walk comes from. The result
is the whole tree, or `none` where the source reads through a null pointer. -/
def removeFix : List (Frame K V) → AVLNode K V → Int → Option (AVLNode K V)
  | [], t, _ => some t
  | f :: rest, t, diff =>
    let ndiff : Int :=
      match rest with
      | [] => 0
      | p :: _ => sideDiff p.side
    let cur := updateBalance diff (f.fill t)
    if getBalance cur = 0 then removeFix rest cur ndiff
    else if getBalance cur = 1 ∨ getBalance cur = -1 then some (plug rest cur)
    else if getBalance cur = -2 then
      let child := getLeft cur
      match child with
      | nil => none
      | node _ _ _ cb grandchild =>
        if cb ≤ 0 then
          -- rotateRight(node): child is the root, node its right child
          removeFix rest
            (setBalance 0 (setRightBalance (wrap8 (-cb)) (rotateRight cur))) ndiff
        else
          match grandchild with
          | nil => none
          | node _ _ _ gb _ =>
            -- rotateLeft(child); rotateRight(node): grandchild is the root,
            -- child its left child, node its right child
            let sub := rotateRight (setLeft (rotateLeft child) cur)
            let sub1 :=
              if gb = -1 then setLeftBalance 0 (setRightBalance 1 sub)
              else if gb = 0 then setLeftBalance 0 (setRightBalance 0 sub)
              else setLeftBalance (-1) (setRightBalance 0 sub)
            removeFix rest (setBalance 0 sub1) ndiff
    else if getBalance cur = 2 then
      let child := getRight cur
      match child with
      | nil => none
      | node grandchild _ _ cb _ =>
        if cb ≥ 0 then
          -- rotateLeft(node): child is the root, node its left child
          removeFix rest
            (setBalance 0 (setLeftBalance (wrap8 (-cb)) (rotateLeft cur))) ndiff
        else
          match grandchild with
          | nil => none
          | node _ _ _ gb _ =>
            -- rotateRight(child); rotateLeft(node): grandchild is the root,
            -- child its right child, node its left child
            let sub := rotateLeft (setRight (rotateRight child) cur)
            let sub1 :=
              if gb = 1 then setRightBalance 0 (setLeftBalance (-1) sub)
              else if gb = 0 then setRightBalance 0 (setLeftBalance 0 sub)
              else setRightBalance 1 (setLeftBalance 0 sub)
            removeFix rest (setBalance 0 sub1) ndiff
    else some (plug rest cur)

/-- What a node carries with it when it changes place: key, value and balance field. -/
structure Cell (K V : Type) where
  key : K
  value : V
  balance : Int

/-- Modelled from the spec: `BinarySearchTree::internalFind` of `bst.h`, which is not among
the sources ("find node by key"): the descent by key comparison from the root. -/
def internalFind [LinearOrder K] (t : AVLNode K V) (k : K) :
    List (Frame K V) × AVLNode K V :=
  descend k t []

/-- The rightmost node of a subtree, with the ancestors passed on the way pushed on `path`. -/
def rightmost : AVLNode K V → List (Frame K V) → List (Frame K V) × AVLNode K V
  | nil, path => (path, nil)
  | node l k v b r, path =>
    match r with
    | nil => (path, node l k v b nil)
    | node _ _ _ _ _ => rightmost r (⟨Side.right, k, v, b, l⟩ :: path)

/-- Modelled from the spec: `BinarySearchTree::predecessor` of `bst.h`, which is not among the
sources ("find in-order predecessor of a node"), for a node whose left subtree is `l`: the
rightmost node of `l`, with its ancestors inside `l`. -/
def predecessor (l : AVLNode K V) : List (Frame K V) × AVLNode K V :=
  rightmost l []

/-- Modelled from the spec: `BinarySearchTree::nodeSwap` of `bst.h`, which is not among the
sources ("swap two nodes' tree positions while preserving all other nodes' relationships").
The result is what stands at the former place of `n1` and at the former place of `n2`: the
nodes themselves, each with its own fields, have changed places. -/
def baseNodeSwap (n1 n2 : Cell K V) : Cell K V × Cell K V := (n2, n1)

/-- `AVLTree::nodeSwap`: the base swap, then the two balance fields are exchanged. The result
is what stands at the former place of `n1` and at the former place of `n2`. -/
def nodeSwap (n1 n2 : Cell K V) : Cell K V × Cell K V :=
  match baseNodeSwap n1 n2 with
  | (at1, at2) =>
    -- n1 now stands at the second place, n2 at the first
    let tempB := at2.balance
    let n1new : Cell K V := ⟨at2.key, at2.value, at1.balance⟩
    let n2new : Cell K V := ⟨at1.key, at1.value, tempB⟩
    (n2new, n1new)

/-- The second half of `AVLTree::remove`: `cur` is the node to unlink (with at most one child
in a run of the source), `path` its ancestors. -/
def removeAt (path : List (Frame K V)) (cur : AVLNode K V) : Option (AVLNode K V) :=
  let child := if !(isNil (getLeft cur)) then getLeft cur else getRight cur
  match path with
  | [] => some child
  | parent :: _ => removeFix path child (sideDiff parent.side)

/-- `AVLTree::remove`. -/
def remove [LinearOrder K] (t : AVLNode K V) (k : K) : Option (AVLNode K V) :=
  match internalFind t k with
  | (_, nil) => some t
  | (path, node l key v b r) =>
    if !(isNil l) && !(isNil r) then
      match predecessor l with
      | (_, nil) => none
      | (inner, node pl pk pv pb pr) =>
        match nodeSwap ⟨key, v, b⟩ ⟨pk, pv, pb⟩ with
        | (atNode, atPred) =>
          removeAt (inner ++ ⟨Side.left, atNode.key, atNode.value, atNode.balance, r⟩ :: path)
            (node pl atPred.key atPred.value atPred.balance pr)
    else removeAt path (node l key v b r)

/-- One public call. -/
inductive Op (K V : Type) where
  | ins (k : K) (v : V) : Op K V
  | rem (k : K) : Op K V

/-- A sequence of public calls, each one started when the one before has returned; `none` as
soon as a call reads through a null pointer. -/
def runOps [LinearOrder K] : List (Op K V) → AVLNode K V → Option (AVLNode K V)
  | [], t => some t
  | Op.ins k v :: ops, t => runOps ops (insert t k v)
  | Op.rem k :: ops, t =>
    match remove t k with
    | none => none
    | some t1 => runOps ops t1

/-- Stored balance equals height(right) - height(left) and lies in {-1,0,1}, at every node. -/
def Balanced : AVLNode K V → Prop
  | nil => True
  | node l _ _ b r =>
    Balanced l ∧ Balanced r ∧ b = (height r : Int) - (height l : Int) ∧ -1 ≤ b ∧ b ≤ 1

/-- The heights of the two subtrees of every node differ by at most 1. -/
def HeightBalanced : AVLNode K V → Prop
  | nil => True
  | node l _ _ _ r =>
    HeightBalanced l ∧ HeightBalanced r ∧ height l ≤ height r + 1 ∧ height r ≤ height l + 1

/-- Every stored balance lies in {-1,0,1}. -/
def BalanceInRange : AVLNode K V → Prop
  | nil => True
  | node l _ _ b r => BalanceInRange l ∧ BalanceInRange r ∧ -1 ≤ b ∧ b ≤ 1

/-- BST ordering: the in-order key sequence is strictly increasing. -/
def BST [LT K] (t : AVLNode K V) : Prop := (keys t).Sorted (· < ·)

instance decidableBST [LT K] [DecidableRel (fun a b : K => a < b)] (t : AVLNode K V) :
    Decidable (BST t) := by
  unfold BST
  infer_instance

/-- The entries that come before the current subtree in the in-order sequence of the whole
tree: those of the ancestors on whose right the walk is, and of their left subtrees. -/
def pathBefore : List (Frame K V) → List (K × V)
  | [] => []
  | f :: rest =>
    pathBefore rest ++
      (match f.side with
       | Side.left => []
       | Side.right => entries f.sibling ++ [(f.key, f.value)])

/-- The entries that come after the current subtree in the in-order sequence of the whole
tree. -/
def pathAfter : List (Frame K V) → List (K × V)
  | [] => []
  | f :: rest =>
    (match f.side with
     | Side.left => (f.key, f.value) :: entries f.sibling
     | Side.right => []) ++ pathAfter rest

/-- The key `k` lies strictly between the entries before and the entries after the current
subtree. -/
def PathBounds [LT K] (k : K) (path : List (Frame K V)) : Prop :=
  (∀ e ∈ pathBefore path, e.1 < k) ∧ (∀ e ∈ pathAfter path, k < e.1)

/-- A list of entries with strictly increasing keys. -/
def EntriesSorted [LT K] (es : List (K × V)) : Prop :=
  es.Pairwise (fun a b => a.1 < b.1)

/-- Modelled from the spec: the lookup `find(key)` of the base class (`bst.h` is not among the
sources): the value held by the node that `internalFind` reaches, if it reaches one. -/
def find [LinearOrder K] (t : AVLNode K V) (k : K) : Option V :=
  match internalFind t k with
  | (_, nil) => none
  | (_, node _ _ v _ _) => some v

/-- The tree without its values: shape, keys and stored balances. -/
def skeleton : AVLNode K V → AVLNode K Unit
  | nil => nil
  | node l k _ b r => node (skeleton l) k () b (skeleton r)

/-- A valid three-node tree with keys 1, 2, 3, used to instantiate the theorems. -/
def sampleTree : AVLNode Nat Nat :=
  node (node nil 1 10 0 nil) 2 20 0 (node nil 3 30 0 nil)

/-- The ancestors of a subtree of height `h` are balanced: every sibling subtree is
`Balanced`, and every ancestor's stored balance is in {-1,0,1} and equals
height(right) - height(left) of that ancestor. -/
def BalancedPath : List (Frame K V) → Nat → Prop
  | [], _ => True
  | f :: rest, h =>
    Balanced f.sibling ∧ -1 ≤ f.balance ∧ f.balance ≤ 1 ∧
      (match f.side with
       | Side.left => f.balance = (height f.sibling : Int) - (h : Int)
       | Side.right => f.balance = (h : Int) - (height f.sibling : Int)) ∧
      BalancedPath rest (1 + max h (height f.sibling))

/-- Every ancestor on the path hangs the current subtree on the side the comparison of `k`
with its key chooses. -/
def SidesFollow [LT K] (k : K) (path : List (Frame K V)) : Prop :=
  ∀ f ∈ path, (f.side = Side.left ↔ k < f.key)

/-- An ancestor at which `removeFix` rebalances without reading through a null pointer: its
stored balance is in {-1,0,1}, and when the balance leans away from the side the walk comes
from, the child on the heavy side is present, and so is the grandchild that a double
rotation lifts. -/
def SafeFrame (f : Frame K V) : Prop :=
  -1 ≤ f.balance ∧ f.balance ≤ 1 ∧
    (match f.side with
     | Side.left => f.balance = 1 →
        isNil f.sibling = false ∧
          (getBalance f.sibling < 0 → isNil (getLeft f.sibling) = false)
     | Side.right => f.balance = -1 →
        isNil f.sibling = false ∧
          (0 < getBalance f.sibling → isNil (getRight f.sibling) = false))

/-- The tree that the calls insert(1), insert(2), insert(3), insert(4) build from the empty
tree. -/
def chainTree : AVLNode Nat Nat :=
  node (node nil 1 0 0 nil) 2 0 1 (node nil 3 0 1 (node nil 4 0 0 nil))

/-- A balanced tree of 13 keys; the calls insert(8), insert(3), insert(12), insert(2),
insert(6), insert(10), insert(13), insert(1), insert(5), insert(7), insert(9), insert(11),
insert(4) build it from the empty tree. -/
def avl13 : AVLNode Nat Nat :=
  node
    (node (node (node nil 1 0 0 nil) 2 0 (-1) nil) 3 0 1
      (node (node (node nil 4 0 0 nil) 5 0 (-1) nil) 6 0 (-1) (node nil 7 0 0 nil)))
    8 0 (-1)
    (node (node (node nil 9 0 0 nil) 10 0 0 (node nil 11 0 0 nil)) 12 0 (-1)
      (node nil 13 0 0 nil))

/-- What `remove(13)` makes of `avl13`. -/
def avl13After : AVLNode Nat Nat :=
  node
    (node (node (node nil 1 0 0 nil) 2 0 (-1) nil) 3 0 0
      (node (node nil 4 0 0 nil) 5 0 (-1) nil))
    6 0 0
    (node (node nil 7 0 0 nil) 8 0 1
      (node (node nil 9 0 0 nil) 10 0 0 (node (node nil 11 0 0 nil) 12 0 0 nil)))

/-- The calls `insert(k, 0)` for the keys of a list, in order. -/
def insertOps (ks : List Nat) : List (Op Nat Nat) := ks.map (fun k => Op.ins k 0)

/-- The calls `remove(k)` for the keys of a list, in order. -/
def removeOps (ks : List Nat) : List (Op Nat Nat) := ks.map (fun k => Op.rem k)

/-- The first half of `AVLTree::remove`: the node that is going to be unlinked, with its
ancestors, after the swap with the predecessor when the node found has two children; `none`
when the key is not in the tree. -/
def unlinkTarget [LinearOrder K] (t : AVLNode K V) (k : K) :
    Option (List (Frame K V) × AVLNode K V) :=
  match internalFind t k with
  | (_, nil) => none
  | (path, node l key v b r) =>
    if !(isNil l) && !(isNil r) then
      match predecessor l with
      | (_, nil) => none
      | (inner, node pl pk pv pb pr) =>
        match nodeSwap ⟨key, v, b⟩ ⟨pk, pv, pb⟩ with
        | (atNode, atPred) =>
          some (inner ++ ⟨Side.left, atNode.key, atNode.value, atNode.balance, r⟩ :: path,
            node pl atPred.key atPred.value atPred.balance pr)
    else some (path, node l key v b r)

/-- In-order sequence of the stored balances, each with the key of its node. -/
def balances : AVLNode K V → List (K × Int)
  | nil => []
  | node l k _ b r => balances l ++ (k, b) :: balances r

/-- The tree that a list of `insert` calls builds from the empty tree. -/
def insertAll [LinearOrder K] (kvs : List (K × V)) : AVLNode K V :=
  kvs.foldl (fun t kv => insert t kv.1 kv.2) nil

end AVLTree

/-! # Leaf-depth equality check of `equal-paths.cpp` -/

namespace EqualPaths

/-- Modelled from the spec: the `Node` of `equal-paths.h`, which is not among the sources: a
node of a generic binary tree with a `left` and a `right` link, either of which may be null;
`key` stands for whatever else a node holds. -/
inductive Node (α : Type) where
  | null : Node α
  | mk (left : Node α) (key : α) (right : Node α) : Node α

open Node

variable {α : Type}

/-- Null test on a node pointer. -/
def isNull : Node α → Bool
  | null => true
  | mk _ _ _ => false

/-- `getLeafHeight` of the source. The `int` values are path lengths, taken to stay below
2^31. -/
def getLeafHeight : Node α → Int
  | null => 0
  | mk l _ r =>
    if isNull l && isNull r then 1
    else
      let leftHeight : Int := if !(isNull l) then getLeafHeight l else 0
      let rightHeight : Int := if !(isNull r) then getLeafHeight r else 0
      if !(isNull l) && !(isNull r) then
        (if leftHeight ≠ 0 ∧ rightHeight ≠ 0 then max leftHeight rightHeight + 1 else 0)
      else (leftHeight + rightHeight) + 1

/-- `checkEqualPaths` of the source. -/
def checkEqualPaths : Node α → Int → Int → Bool
  | null, _, _ => true
  | mk l _ r, targetHeight, currentHeight =>
    if isNull l && isNull r then decide (currentHeight = targetHeight)
    else
      (if !(isNull l) then checkEqualPaths l targetHeight (currentHeight + 1) else true) &&
        (if !(isNull r) then checkEqualPaths r targetHeight (currentHeight + 1) else true)

/-- `equalPaths` of the source. -/
def equalPaths (root : Node α) : Bool :=
  if isNull root then true
  else
    let targetHeight := getLeafHeight root
    checkEqualPaths root targetHeight 1

/-- Number of nodes on the longest path from the root down to a leaf; 0 for the empty
tree. -/
def height : Node α → Nat
  | null => 0
  | mk l _ r => 1 + max (height l) (height r)

/-- The depths of the leaves (the nodes without children), left to right, when the root of
the tree is at depth `d`. -/
def leafDepths : Node α → Nat → List Nat
  | null, _ => []
  | mk l _ r, d =>
    if isNull l && isNull r then [d]
    else leafDepths l (d + 1) ++ leafDepths r (d + 1)

/-- All leaves lie at the same depth from the root. -/
def AllLeavesSameDepth (t : Node α) : Prop :=
  ∀ x ∈ leafDepths t 0, ∀ y ∈ leafDepths t 0, x = y

/-- A single node. -/
def singleNode : Node Nat := mk null 1 null

/-- A root with only a left child. -/
def leftOnly : Node Nat := mk (mk null 2 null) 1 null

/-- A root whose left child is a leaf and whose right child has one further left child. -/
def unevenTree : Node Nat := mk (mk null 2 null) 1 (mk (mk null 4 null) 3 null)

end EqualPaths

namespace AVLTree

open AVLNode

variable {K V : Type}

/-! ## In-order sequence: rotations, balance updates and the two fix-up walks keep it -/

@[simp] theorem entries_setBalance (b : Int) (t : AVLNode K V) :
    entries (setBalance b t) = entries t := by
  cases t <;> rfl

@[simp] theorem entries_updateBalance (d : Int) (t : AVLNode K V) :
    entries (updateBalance d t) = entries t := by
  cases t <;> rfl

@[simp] theorem entries_setLeftBalance (b : Int) (t : AVLNode K V) :
    entries (setLeftBalance b t) = entries t := by
  cases t <;> simp [setLeftBalance, entries]

@[simp] theorem entries_setRightBalance (b : Int) (t : AVLNode K V) :
    entries (setRightBalance b t) = entries t := by
  cases t <;> simp [setRightBalance, entries]

@[simp] theorem entries_rotateLeft (t : AVLNode K V) :
    entries (rotateLeft t) = entries t := by
  unfold rotateLeft
  split <;> simp [entries]

@[simp] theorem entries_rotateRight (t : AVLNode K V) :
    entries (rotateRight t) = entries t := by
  unfold rotateRight
  split <;> simp [entries]

theorem entries_fill (f : Frame K V) (t : AVLNode K V) :
    entries (f.fill t) =
      (match f.side with
       | Side.left => []
       | Side.right => entries f.sibling ++ [(f.key, f.value)]) ++ entries t ++
      (match f.side with
       | Side.left => (f.key, f.value) :: entries f.sibling
       | Side.right => []) := by
  unfold Frame.fill
  cases f.side <;> simp [entries]

theorem entries_plug (path : List (Frame K V)) (t : AVLNode K V) :
    entries (plug path t) = pathBefore path ++ entries t ++ pathAfter path := by
  induction path generalizing t with
  | nil => simp [plug, pathBefore, pathAfter]
  | cons f rest ih =>
    simp only [plug, pathBefore, pathAfter, ih, entries_fill]
    simp [List.append_assoc]

theorem entries_insertFix (path : List (Frame K V)) (parent : AVLNode K V) (s : Side) :
    entries (insertFix path parent s) = pathBefore path ++ entries parent ++ pathAfter path := by
  induction path generalizing parent s with
  | nil => simp [insertFix, pathBefore, pathAfter]
  | cons g rest ih =>
    unfold insertFix
    cases hs : g.side <;> cases s <;>
      simp only [pathBefore, pathAfter, hs] <;>
      split_ifs <;>
      simp [entries_plug, ih, entries, setLeft, setRight, List.append_assoc]

theorem entries_removeFix (path : List (Frame K V)) :
    ∀ (t : AVLNode K V) (d : Int) (t' : AVLNode K V), removeFix path t d = some t' →
      entries t' = pathBefore path ++ entries t ++ pathAfter path := by
  induction path with
  | nil =>
    intro t d t' h
    simp only [removeFix, Option.some.injEq] at h
    simp [← h, pathBefore, pathAfter]
  | cons f rest ih =>
    intro t d t' h
    unfold removeFix at h
    obtain ⟨side, k, v, b, sib⟩ := f
    cases side <;>
      simp only [Frame.fill, updateBalance, getBalance, getLeft, getRight] at h <;>
      (repeat' split at h) <;>
      first
      | (cases h; done)
      | (rw [ih _ _ _ h]
         simp [pathBefore, pathAfter, entries, setLeft, setRight, rotateLeft, rotateRight,
           setBalance, setLeftBalance, setRightBalance, List.append_assoc])
      | (simp only [Option.some.injEq] at h
         simp [← h, entries_plug, pathBefore, pathAfter, entries, List.append_assoc])

/-! ## The descent -/

theorem bst_iff [LT K] (t : AVLNode K V) : BST t ↔ EntriesSorted (entries t) := by
  simp [BST, keys, EntriesSorted, List.Sorted, List.pairwise_map]

theorem pathBefore_append (p q : List (Frame K V)) :
    pathBefore (p ++ q) = pathBefore q ++ pathBefore p := by
  induction p with
  | nil => simp [pathBefore]
  | cons f rest ih => simp [pathBefore, ih, List.append_assoc]

theorem pathAfter_append (p q : List (Frame K V)) :
    pathAfter (p ++ q) = pathAfter p ++ pathAfter q := by
  induction p with
  | nil => simp [pathAfter]
  | cons f rest ih => simp [pathAfter, ih, List.append_assoc]

theorem descend_plug [LinearOrder K] (k : K) (t : AVLNode K V) (path : List (Frame K V)) :
    plug (descend k t path).1 (descend k t path).2 = plug path t := by
  induction t generalizing path with
  | nil => simp [descend]
  | node l key v b r ihl ihr =>
    unfold descend
    split_ifs
    · rfl
    · rw [ihl]; simp [plug, Frame.fill]
    · rw [ihr]; simp [plug, Frame.fill]

theorem descend_found [LinearOrder K] (k : K) (t : AVLNode K V) (path : List (Frame K V)) :
    (descend k t path).2 = nil ∨ ∃ l v b r, (descend k t path).2 = node l k v b r := by
  induction t generalizing path with
  | nil => simp [descend]
  | node l key v b r ihl ihr =>
    unfold descend
    split_ifs with h1 h2
    · right; exact ⟨l, v, b, r, by simp [h1]⟩
    · exact ihl _
    · exact ihr _

theorem descend_bounds [LinearOrder K] (k : K) (t : AVLNode K V) (path : List (Frame K V))
    (hs : EntriesSorted (pathBefore path ++ entries t ++ pathAfter path))
    (hb : PathBounds k path) : PathBounds k (descend k t path).1 := by
  induction t generalizing path with
  | nil => simpa [descend] using hb
  | node l key v b r ihl ihr =>
    unfold descend
    split_ifs with h1 h2
    · exact hb
    · apply ihl
      · simpa [pathBefore, pathAfter, entries, List.append_assoc] using hs
      · refine ⟨by simpa [pathBefore] using hb.1, ?_⟩
        intro e he
        simp only [pathAfter, List.cons_append, List.mem_cons, List.mem_append] at he
        simp only [EntriesSorted, entries, List.pairwise_append, List.pairwise_cons,
          List.mem_append, List.mem_cons] at hs
        rcases he with rfl | he | he
        · exact h2
        · exact lt_trans h2 (hs.1.2.1.2.1.1 e he)
        · exact hb.2 e he
    · have h3 : key < k := lt_of_le_of_ne (not_lt.mp h2) (Ne.symm h1)
      apply ihr
      · simpa [pathBefore, pathAfter, entries, List.append_assoc] using hs
      · refine ⟨?_, by simpa [pathAfter] using hb.2⟩
        intro e he
        simp only [pathBefore, List.mem_cons, List.mem_append, List.not_mem_nil, or_false] at he
        simp only [EntriesSorted, entries, List.pairwise_append, List.pairwise_cons,
          List.mem_append, List.mem_cons] at hs
        rcases he with he | he | rfl
        · exact hb.1 e he
        · exact lt_trans (hs.1.2.1.2.2 e he (key, v) (Or.inl rfl)) h3
        · exact h3

theorem descend_entries [LinearOrder K] (k : K) (t : AVLNode K V) :
    entries t = pathBefore (descend k t []).1 ++ entries (descend k t []).2 ++
      pathAfter (descend k t []).1 := by
  have h := congrArg entries (descend_plug k t [])
  simpa [entries_plug, plug] using h.symm

theorem descend_bounds_root [LinearOrder K] (k : K) (t : AVLNode K V) (hs : BST t) :
    PathBounds k (descend k t []).1 := by
  rw [bst_iff] at hs
  exact descend_bounds k t [] (by simpa [pathBefore, pathAfter] using hs)
    ⟨by simp [pathBefore], by simp [pathAfter]⟩

/-- The in-order sequence after `insert`: the entry of `k` is put (or replaced) at its place
between the smaller and the larger keys. -/
theorem insert_entries [LinearOrder K] (t : AVLNode K V) (k : K) (v : V) (hs : BST t) :
    ∃ L R, (entries t = L ++ R ∨ ∃ v0, entries t = L ++ (k, v0) :: R) ∧
      entries (insert t k v) = L ++ (k, v) :: R ∧
      (∀ e ∈ L, e.1 < k) ∧ (∀ e ∈ R, k < e.1) := by
  have hb := descend_bounds_root k t hs
  have he := descend_entries k t
  have hf := descend_found k t []
  rw [bst_iff] at hs
  cases t with
  | nil => exact ⟨[], [], Or.inl rfl, by simp [insert, entries], by simp, by simp⟩
  | node tl tk tv tb tr =>
    unfold insert
    simp only
    rcases hd : descend k (node tl tk tv tb tr) [] with ⟨p, c⟩
    rw [hd] at hb he hf
    simp only at hb he hf ⊢
    rcases hf with rfl | ⟨l, v0, b, r, rfl⟩
    · cases p with
      | nil => simp [pathBefore, pathAfter, entries] at he
      | cons f rest =>
        refine ⟨pathBefore (f :: rest), pathAfter (f :: rest),
          Or.inl (by simpa [entries] using he), ?_, hb.1, hb.2⟩
        obtain ⟨side, fk, fv, fb, sib⟩ := f
        cases side
        · have hlt : k < fk := hb.2 (fk, fv) (by simp [pathAfter])
          simp only [hlt, if_true, Frame.fill, setLeft, updateBalance, getBalance]
          split_ifs <;>
            simp [entries_insertFix, entries_plug, entries, pathBefore, pathAfter,
              List.append_assoc]
        · have hlt : ¬ k < fk := not_lt.mpr (le_of_lt (hb.1 (fk, fv) (by simp [pathBefore])))
          simp only [hlt, if_false, Frame.fill, setRight, updateBalance, getBalance]
          split_ifs <;>
            simp [entries_insertFix, entries_plug, entries, pathBefore, pathAfter,
              List.append_assoc]
    · rw [he] at hs
      simp only [EntriesSorted, entries, List.pairwise_append, List.pairwise_cons,
        List.mem_append, List.mem_cons] at hs
      refine ⟨pathBefore p ++ entries l, entries r ++ pathAfter p,
        Or.inr ⟨v0, by simpa [entries, List.append_assoc] using he⟩,
        by simp [entries_plug, entries, List.append_assoc], ?_, ?_⟩
      · intro e hmem
        rcases List.mem_append.mp hmem with hmem | hmem
        · exact hb.1 e hmem
        · exact hs.1.2.1.2.2 e hmem (k, v0) (Or.inl rfl)
      · intro e hmem
        rcases List.mem_append.mp hmem with hmem | hmem
        · exact hs.1.2.1.2.1.1 e hmem
        · exact hb.2 e hmem

/-! ## The predecessor and the unlinking step of `remove` -/

theorem isNil_iff (t : AVLNode K V) : isNil t = true ↔ t = nil := by
  cases t <;> simp [isNil]

theorem rightmost_node_node (l : AVLNode K V) (k : K) (v : V) (b : Int) (rl : AVLNode K V)
    (rk : K) (rv : V) (rb : Int) (rr : AVLNode K V) (path : List (Frame K V)) :
    rightmost (node l k v b (node rl rk rv rb rr)) path =
      rightmost (node rl rk rv rb rr) (⟨Side.right, k, v, b, l⟩ :: path) := by
  rw [rightmost]

theorem rightmost_spec (t : AVLNode K V) (path : List (Frame K V)) :
    plug (rightmost t path).1 (rightmost t path).2 = plug path t ∧
      getRight (rightmost t path).2 = nil ∧
      pathAfter (rightmost t path).1 = pathAfter path ∧
      ((rightmost t path).2 = nil → t = nil) := by
  induction t generalizing path with
  | nil => simp [rightmost, getRight]
  | node l k v b r _ ihr =>
    cases r with
    | nil => simp [rightmost, getRight]
    | node rl rk rv rb rr =>
      have h := ihr (⟨Side.right, k, v, b, l⟩ :: path)
      rw [rightmost_node_node]
      refine ⟨?_, h.2.1, ?_, ?_⟩
      · rw [h.1]; simp [plug, Frame.fill]
      · rw [h.2.2.1]; simp [pathAfter]
      · intro hn; exact absurd (h.2.2.2 hn) (by simp)

theorem predecessor_entries (l : AVLNode K V) :
    entries l = pathBefore (predecessor l).1 ++ entries (predecessor l).2 ∧
      getRight (predecessor l).2 = nil ∧ ((predecessor l).2 = nil → l = nil) ∧
      pathAfter (predecessor l).1 = [] := by
  have h := rightmost_spec l []
  have he := congrArg entries h.1
  simp only [entries_plug, plug, h.2.2.1, pathAfter, pathBefore, List.append_nil,
    List.nil_append] at he
  exact ⟨he.symm, h.2.1, h.2.2.2, by simpa [pathAfter] using h.2.2.1⟩

theorem removeAt_entries (path : List (Frame K V)) (l r : AVLNode K V) (k : K) (v : V)
    (b : Int) (t' : AVLNode K V) (hone : l = nil ∨ r = nil)
    (h : removeAt path (node l k v b r) = some t') :
    entries t' = pathBefore path ++ (entries l ++ entries r) ++ pathAfter path := by
  have hc : entries (if !(isNil (getLeft (node l k v b r))) then getLeft (node l k v b r)
      else getRight (node l k v b r)) = entries l ++ entries r := by
    rcases hone with rfl | rfl
    · simp [getLeft, getRight, isNil, entries]
    · cases l <;> simp [getLeft, getRight, isNil, entries]
  unfold removeAt at h
  cases path with
  | nil =>
    simp only [Option.some.injEq] at h
    rw [← h, hc]; simp [pathBefore, pathAfter]
  | cons f rest =>
    simp only at h
    rw [entries_removeFix _ _ _ _ h, hc]

/-- The in-order sequence after a `remove` that returns: the entry of `k`, if there is one,
is taken out and nothing else changes; with no entry of `k` the tree itself is unchanged. -/
theorem remove_entries [LinearOrder K] (t : AVLNode K V) (k : K) (t' : AVLNode K V)
    (hs : BST t) (h : remove t k = some t') :
    ∃ L R, ((entries t = L ++ R ∧ t' = t) ∨ ∃ v0, entries t = L ++ (k, v0) :: R) ∧
      entries t' = L ++ R ∧ (∀ e ∈ L, e.1 < k) ∧ (∀ e ∈ R, k < e.1) := by
  have hb := descend_bounds_root k t hs
  have he := descend_entries k t
  have hf := descend_found k t []
  rw [bst_iff] at hs
  unfold remove internalFind at h
  rcases hd : descend k t [] with ⟨p, c⟩
  rw [hd] at hb he hf h
  simp only at hb he hf h
  rcases hf with rfl | ⟨l, v0, b, r, rfl⟩
  · simp only [Option.some.injEq] at h
    subst h
    exact ⟨pathBefore p, pathAfter p, Or.inl ⟨by simpa [entries] using he, rfl⟩,
      by simpa [entries] using he, hb.1, hb.2⟩
  · rw [he] at hs
    simp only [EntriesSorted, entries, List.pairwise_append, List.pairwise_cons,
      List.mem_append, List.mem_cons] at hs
    refine ⟨pathBefore p ++ entries l, entries r ++ pathAfter p,
      Or.inr ⟨v0, by simpa [entries, List.append_assoc] using he⟩, ?_, ?_, ?_⟩
    · simp only at h
      split_ifs at h with h2
      · have hp := predecessor_entries l
        rcases hpd : predecessor l with ⟨inner, pc⟩
        rw [hpd] at hp h
        simp only at hp h
        cases pc with
        | nil => simp at h
        | node pl pk pv pb pr =>
          simp only [nodeSwap, baseNodeSwap] at h
          have hpr : pr = nil := by simpa [getRight] using hp.2.1
          rw [removeAt_entries _ _ _ _ _ _ _ (Or.inr hpr) h, hp.1, hpr]
          simp [pathBefore_append, pathAfter_append, pathBefore, pathAfter, entries,
            List.append_assoc, hp.2.2.2]
      · have hone : l = nil ∨ r = nil := by
          cases l <;> cases r <;> simp [isNil] at h2 ⊢
        rw [removeAt_entries _ _ _ _ _ _ _ hone h]
        simp [List.append_assoc]
    · intro e hmem
      rcases List.mem_append.mp hmem with hmem | hmem
      · exact hb.1 e hmem
      · exact hs.1.2.1.2.2 e hmem (k, v0) (Or.inl rfl)
    · intro e hmem
      rcases List.mem_append.mp hmem with hmem | hmem
      · exact hs.1.2.1.2.1.1 e hmem
      · exact hb.2 e hmem

/-! ## Consequences for ordering and lookup -/

theorem sorted_insert_entry [LT K] (L R : List (K × V)) (k : K) (v : V)
    (hL : EntriesSorted L) (hR : EntriesSorted R)
    (hbL : ∀ e ∈ L, e.1 < k) (hbR : ∀ e ∈ R, k < e.1)
    (hLR : ∀ a ∈ L, ∀ b ∈ R, a.1 < b.1) : EntriesSorted (L ++ (k, v) :: R) := by
  simp only [EntriesSorted, List.pairwise_append, List.pairwise_cons, List.mem_cons]
  refine ⟨hL, ⟨hbR, hR⟩, ?_⟩
  intro a ha b hb
  rcases hb with rfl | hb
  · exact hbL a ha
  · exact hLR a ha b hb

theorem bst_insert [LinearOrder K] (t : AVLNode K V) (k : K) (v : V) (hs : BST t) :
    BST (insert t k v) := by
  obtain ⟨L, R, h1, h2, hL, hR⟩ := insert_entries t k v hs
  rw [bst_iff] at hs ⊢
  rw [h2]
  rcases h1 with h1 | ⟨v0, h1⟩
  · rw [h1] at hs
    simp only [EntriesSorted, List.pairwise_append] at hs
    exact sorted_insert_entry L R k v hs.1 hs.2.1 hL hR hs.2.2
  · rw [h1] at hs
    simp only [EntriesSorted, List.pairwise_append, List.pairwise_cons, List.mem_cons] at hs
    exact sorted_insert_entry L R k v hs.1 hs.2.1.2 hL hR
      (fun a ha b hb => hs.2.2 a ha b (Or.inr hb))

theorem bst_remove [LinearOrder K] (t : AVLNode K V) (k : K) (t' : AVLNode K V)
    (hs : BST t) (h : remove t k = some t') : BST t' := by
  obtain ⟨L, R, h1, h2, -, -⟩ := remove_entries t k t' hs h
  rw [bst_iff] at hs ⊢
  rw [h2]
  rcases h1 with ⟨h1, -⟩ | ⟨v0, h1⟩
  · rw [h1] at hs; exact hs
  · rw [h1] at hs
    simp only [EntriesSorted, List.pairwise_append, List.pairwise_cons, List.mem_cons] at hs ⊢
    exact ⟨hs.1, hs.2.1.2, fun a ha b hb => hs.2.2 a ha b (Or.inr hb)⟩

theorem bst_runOps [LinearOrder K] (ops : List (Op K V)) :
    ∀ (t t' : AVLNode K V), BST t → runOps ops t = some t' → BST t' := by
  induction ops with
  | nil =>
    intro t t' hs h
    simp only [runOps, Option.some.injEq] at h
    exact h ▸ hs
  | cons op ops ih =>
    intro t t' hs h
    cases op with
    | ins k v => exact ih _ _ (bst_insert t k v hs) (by simpa [runOps] using h)
    | rem k =>
      simp only [runOps] at h
      cases hr : remove t k with
      | none => simp [hr] at h
      | some t1 =>
        rw [hr] at h
        exact ih _ _ (bst_remove t k t1 hs hr) h

theorem bst_nil [LT K] : BST (nil : AVLNode K V) := by
  simp [BST, keys, entries]

theorem find_some_mem [LinearOrder K] (t : AVLNode K V) (k : K) (v : V)
    (h : find t k = some v) : (k, v) ∈ entries t := by
  have he := descend_entries k t
  have hf := descend_found k t []
  unfold find internalFind at h
  rcases hd : descend k t [] with ⟨p, c⟩
  rw [hd] at he hf h
  simp only at he hf h
  rcases hf with rfl | ⟨l, v0, b, r, rfl⟩
  · simp at h
  · simp only [Option.some.injEq] at h
    subst h
    rw [he]
    simp [entries]

theorem mem_find_some [LinearOrder K] (t : AVLNode K V) (k : K) (v : V) (hs : BST t)
    (h : (k, v) ∈ entries t) : find t k = some v := by
  have hb := descend_bounds_root k t hs
  have he := descend_entries k t
  have hf := descend_found k t []
  rw [bst_iff] at hs
  unfold find internalFind
  rcases hd : descend k t [] with ⟨p, c⟩
  rw [hd] at hb he hf
  simp only at hb he hf ⊢
  rw [he] at h hs
  rcases hf with rfl | ⟨l, v0, b, r, rfl⟩
  · simp only [entries, List.append_nil, List.mem_append] at h
    rcases h with h | h
    · exact absurd (hb.1 _ h) (lt_irrefl k)
    · exact absurd (hb.2 _ h) (lt_irrefl k)
  · simp only [EntriesSorted, entries, List.pairwise_append, List.pairwise_cons,
      List.mem_append, List.mem_cons] at hs
    simp only [entries, List.mem_append, List.mem_cons, Prod.mk.injEq, true_and] at h
    rcases h with (h | h | h | h) | h
    · exact absurd (hb.1 _ h) (lt_irrefl k)
    · exact absurd (hs.1.2.1.2.2 _ h (k, v0) (Or.inl rfl)) (lt_irrefl k)
    · simp [h]
    · exact absurd (hs.1.2.1.2.1.1 _ h) (lt_irrefl k)
    · exact absurd (hb.2 _ h) (lt_irrefl k)

theorem find_eq_some_iff [LinearOrder K] (t : AVLNode K V) (k : K) (v : V) (hs : BST t) :
    find t k = some v ↔ (k, v) ∈ entries t :=
  ⟨find_some_mem t k v, mem_find_some t k v hs⟩

theorem insert_present [LinearOrder K] (t : AVLNode K V) (k : K) (v : V)
    (p : List (Frame K V)) (l : AVLNode K V) (k0 : K) (v0 : V) (b : Int) (r : AVLNode K V)
    (hd : descend k t [] = (p, node l k0 v0 b r)) :
    insert t k v = plug p (node l k0 v b r) := by
  cases t with
  | nil => simp [descend] at hd
  | node tl tk tv tb tr =>
    unfold insert
    simp only [hd]

theorem descend_of_mem_keys [LinearOrder K] (t : AVLNode K V) (k : K) (hs : BST t)
    (hk : k ∈ keys t) : ∃ p l v0 b r, descend k t [] = (p, node l k v0 b r) := by
  simp only [keys, List.mem_map] at hk
  obtain ⟨⟨k1, v0⟩, hmem, rfl⟩ := hk
  have hfind := mem_find_some t k1 v0 hs hmem
  have hf := descend_found k1 t []
  unfold find internalFind at hfind
  rcases hd : descend k1 t [] with ⟨p, c⟩
  rw [hd] at hf hfind
  simp only at hf hfind
  rcases hf with rfl | ⟨l, v1, b, r, rfl⟩
  · simp at hfind
  · exact ⟨p, l, v1, b, r, rfl⟩

theorem skeleton_plug (p : List (Frame K V)) (x y : AVLNode K V)
    (h : skeleton x = skeleton y) : skeleton (plug p x) = skeleton (plug p y) := by
  induction p generalizing x y with
  | nil => simpa [plug] using h
  | cons f rest ih =>
    simp only [plug]
    apply ih
    unfold Frame.fill
    cases f.side <;> simp [skeleton, h]

theorem size_eq_length (t : AVLNode K V) : size t = (entries t).length := by
  induction t with
  | nil => rfl
  | node l k v b r ihl ihr => simp [size, entries, ihl, ihr]; omega

theorem map_overwrite_of_ne [DecidableEq K] (L : List (K × V)) (k : K) (v : V)
    (h : ∀ e ∈ L, e.1 ≠ k) : L.map (fun e => if e.1 = k then (e.1, v) else e) = L := by
  induction L with
  | nil => rfl
  | cons a L ih =>
    simp only [List.map_cons, List.cons.injEq]
    refine ⟨by simp [h a (List.mem_cons_self _ _)], ih ?_⟩
    intro e he
    exact h e (List.mem_cons_of_mem _ he)

theorem not_mem_keys_of_bounds [Preorder K] (L R : List (K × V)) (k : K)
    (hL : ∀ e ∈ L, e.1 < k) (hR : ∀ e ∈ R, k < e.1) : k ∉ (L ++ R).map Prod.fst := by
  simp only [List.mem_map, List.mem_append, not_exists, not_and]
  rintro ⟨k1, v1⟩ (h | h) rfl
  · exact lt_irrefl _ (hL _ h)
  · exact lt_irrefl _ (hR _ h)

theorem remove_of_not_mem [LinearOrder K] (t : AVLNode K V) (k : K) (hk : k ∉ keys t) :
    remove t k = some t := by
  have he := descend_entries k t
  have hf := descend_found k t []
  unfold remove internalFind
  rcases hd : descend k t [] with ⟨p, c⟩
  rw [hd] at he hf
  simp only at he hf ⊢
  rcases hf with rfl | ⟨l, v0, b, r, rfl⟩
  · rfl
  · exact absurd (by rw [keys, he]; simp [entries]) hk

/-! ## The claims on ordering, lookup and overwriting -/

/-- C5: BST ordering is preserved by the public operations. For a tree whose in-order key
sequence is strictly increasing, whatever balances are stored, the key sequence after
`insert` is strictly increasing, so is the key sequence after every `remove` that returns,
and so is the key sequence after every sequence of calls from the empty tree in which every
call returns. -/
theorem bst_ordering_preserved [LinearOrder K] (t : AVLNode K V) (k : K) (v : V)
    (hs : BST t) :
    BST (insert t k v) ∧ (∀ t', remove t k = some t' → BST t') ∧
      (∀ (ops : List (Op K V)) (t' : AVLNode K V), runOps ops nil = some t' → BST t') :=
  ⟨bst_insert t k v hs, fun t' h => bst_remove t k t' hs h,
    fun ops t' h => bst_runOps ops nil t' bst_nil h⟩

theorem bst_ordering_preserved_witness :
    BST sampleTree ∧ BST (insert sampleTree 5 50) ∧
      (∀ t', remove sampleTree 2 = some t' → BST t') :=
  ⟨by decide, (bst_ordering_preserved sampleTree 5 50 (by decide)).1,
    (bst_ordering_preserved sampleTree 2 0 (by decide)).2.1⟩

/-- C6: lookup after insert. On a BST-ordered tree, after `insert(k, v)` the lookup of `k`
yields `v`, whether `k` was absent before or present with another value. -/
theorem lookup_after_insert [LinearOrder K] (t : AVLNode K V) (k : K) (v : V) (hs : BST t) :
    find (insert t k v) k = some v := by
  obtain ⟨L, R, -, h2, -, -⟩ := insert_entries t k v hs
  apply mem_find_some _ _ _ (bst_insert t k v hs)
  rw [h2]
  simp

theorem lookup_after_insert_witness :
    BST sampleTree ∧ find (insert sampleTree 2 99) 2 = some 99 ∧
      find (insert sampleTree 7 70) 7 = some 70 :=
  ⟨by decide, lookup_after_insert sampleTree 2 99 (by decide),
    lookup_after_insert sampleTree 7 70 (by decide)⟩

/-- C7: inserting an existing key only overwrites. On a BST-ordered tree that holds `k`,
`insert(k, v2)` leaves shape, keys and stored balances as they were (the trees without their
values are equal), leaves the number of nodes as it was, and changes the in-order entries
only in that the entry of `k` now holds `v2`. -/
theorem insert_existing_overwrites [LinearOrder K] (t : AVLNode K V) (k : K) (v2 : V)
    (hs : BST t) (hk : k ∈ keys t) :
    skeleton (insert t k v2) = skeleton t ∧
      entries (insert t k v2) = (entries t).map (fun e => if e.1 = k then (e.1, v2) else e) ∧
      size (insert t k v2) = size t := by
  obtain ⟨p, l, v0, b, r, hd⟩ := descend_of_mem_keys t k hs hk
  have hins := insert_present t k v2 p l k v0 b r hd
  have hpl := descend_plug k t []
  rw [hd] at hpl
  simp only [plug] at hpl
  obtain ⟨L, R, h1, h2, hL, hR⟩ := insert_entries t k v2 hs
  have hent : entries (insert t k v2) =
      (entries t).map (fun e => if e.1 = k then (e.1, v2) else e) := by
    rcases h1 with h1 | ⟨v1, h1⟩
    · exact absurd (by rw [keys, h1] at hk; exact hk) (not_mem_keys_of_bounds L R k hL hR)
    · rw [h2, h1, List.map_append, List.map_cons,
        map_overwrite_of_ne L k v2 (fun e he => ne_of_lt (hL e he)),
        map_overwrite_of_ne R k v2 (fun e he => ne_of_gt (hR e he))]
      simp
  refine ⟨?_, hent, ?_⟩
  · rw [hins, ← hpl]
    exact skeleton_plug p _ _ (by simp [skeleton])
  · rw [size_eq_length, size_eq_length, hent, List.length_map]

theorem insert_existing_overwrites_witness :
    BST sampleTree ∧ 2 ∈ keys sampleTree ∧
      skeleton (insert sampleTree 2 99) = skeleton sampleTree ∧
      entries (insert sampleTree 2 99) =
        (entries sampleTree).map (fun e => if e.1 = 2 then (e.1, 99) else e) ∧
      size (insert sampleTree 2 99) = size sampleTree :=
  ⟨by decide, by decide, insert_existing_overwrites sampleTree 2 99 (by decide) (by decide)⟩

/-- C9: removing an absent key is a no-op. On a BST-ordered tree, `remove(k)` for a key that
is not in the tree returns and leaves the tree as it was; and when a `remove(k)` has
returned, a second `remove(k)` returns and leaves the tree as the first one left it. -/
theorem remove_absent_noop [LinearOrder K] (t : AVLNode K V) (k : K) (hs : BST t) :
    (k ∉ keys t → remove t k = some t) ∧
      (∀ t', remove t k = some t' → remove t' k = some t') := by
  refine ⟨remove_of_not_mem t k, ?_⟩
  intro t' h
  obtain ⟨L, R, -, h2, hL, hR⟩ := remove_entries t k t' hs h
  apply remove_of_not_mem
  rw [keys, h2]
  exact not_mem_keys_of_bounds L R k hL hR

theorem remove_absent_noop_witness :
    BST sampleTree ∧ remove sampleTree 7 = some sampleTree :=
  ⟨by decide, (remove_absent_noop sampleTree 7 (by decide)).1 (by decide)⟩

/-! ## `insert` keeps the balance invariant -/

theorem balanced_plug (p : List (Frame K V)) :
    ∀ (t : AVLNode K V) (h : Nat), BalancedPath p h → Balanced t → height t = h →
      Balanced (plug p t) := by
  induction p with
  | nil => intro t h _ hb _; simpa [plug] using hb
  | cons f rest ih =>
    intro t h hp hb hh
    obtain ⟨side, fk, fv, fb, sib⟩ := f
    simp only [BalancedPath] at hp
    obtain ⟨hsib, hlo, hhi, hbal, hrest⟩ := hp
    subst hh
    cases side
    · simp only at hbal
      refine ih _ _ hrest ?_ ?_
      · simp only [Frame.fill, Balanced]
        exact ⟨hb, hsib, hbal, hlo, hhi⟩
      · simp [Frame.fill, height]
    · simp only at hbal
      refine ih _ _ hrest ?_ ?_
      · simp only [Frame.fill, Balanced]
        exact ⟨hsib, hb, hbal, hlo, hhi⟩
      · simp [Frame.fill, height, Nat.max_comm]

theorem descend_balanced [LinearOrder K] (k : K) (t : AVLNode K V) :
    ∀ (path : List (Frame K V)), BalancedPath path (height t) → Balanced t →
      BalancedPath (descend k t path).1 (height (descend k t path).2) ∧
        Balanced (descend k t path).2 := by
  induction t with
  | nil => intro path hp hb; simpa [descend] using ⟨hp, hb⟩
  | node l key v b r ihl ihr =>
    intro path hp hb
    unfold descend
    have hb' := hb
    simp only [Balanced] at hb'
    obtain ⟨hl, hr, hbal, hlo, hhi⟩ := hb'
    split_ifs with h1 h2
    · exact ⟨hp, hb⟩
    · apply ihl _ _ hl
      simp only [BalancedPath]
      exact ⟨hr, hlo, hhi, hbal, by simpa [height] using hp⟩
    · apply ihr _ _ hr
      simp only [BalancedPath]
      refine ⟨hl, hlo, hhi, hbal, ?_⟩
      simpa [height, Nat.max_comm] using hp

theorem descend_sides [LinearOrder K] (k : K) (t : AVLNode K V) :
    ∀ (path : List (Frame K V)), SidesFollow k path → SidesFollow k (descend k t path).1 := by
  induction t with
  | nil => intro path hp; simpa [descend] using hp
  | node l key v b r ihl ihr =>
    intro path hp
    unfold descend
    split_ifs with h1 h2
    · exact hp
    · apply ihl
      intro f hf
      rcases List.mem_cons.mp hf with rfl | hf
      · simp [h2]
      · exact hp f hf
    · apply ihr
      intro f hf
      rcases List.mem_cons.mp hf with rfl | hf
      · simp [h2]
      · exact hp f hf

theorem insertFix_balanced (path : List (Frame K V)) :
    ∀ (parent : AVLNode K V) (s : Side) (h : Nat), BalancedPath path h → Balanced parent →
      height parent = h + 1 → (s = Side.left → getBalance parent = -1) →
      (s = Side.right → getBalance parent = 1) → Balanced (insertFix path parent s) := by
  induction path with
  | nil => intro parent s h _ hb _ _ _; simpa [insertFix] using hb
  | cons g rest ih =>
    intro parent s h hp hb hh hl hr
    obtain ⟨side, gk, gv, gb, sib⟩ := g
    simp only [BalancedPath] at hp
    obtain ⟨hsib, hlo, hhi, hbal, hrest⟩ := hp
    cases parent with
    | nil => simp [height] at hh
    | node pl pk pv pb pr =>
      have hb' := hb
      simp only [Balanced] at hb'
      obtain ⟨hpl, hpr, hpb, hplo, hphi⟩ := hb'
      simp only [height] at hh
      simp only [getBalance] at hl hr
      cases side
      · simp only at hbal
        have hcase : gb = -1 ∨ gb = 0 ∨ gb = 1 := by omega
        rcases hcase with rfl | rfl | rfl
        · cases s
          · have hpb1 := hl rfl
            subst hpb1
            simp only [insertFix, wrap8, rotateRight, setBalance, setRightBalance]
            norm_num
            refine balanced_plug rest _ _ hrest ?_ ?_
            · simp only [Balanced, height]
              refine ⟨hpl, ⟨hpr, hsib, ?_, ?_, ?_⟩, ?_, ?_, ?_⟩ <;> omega
            · simp only [height]; omega
          · have hpb1 := hr rfl
            subst hpb1
            cases pr with
            | nil => simp only [height] at hpb; omega
            | node nl nk nv nb nr =>
              simp only [Balanced] at hpr
              obtain ⟨hnl, hnr, hnb, hnlo, hnhi⟩ := hpr
              simp only [height] at hh hpb
              simp only [insertFix, wrap8, rotateLeft, rotateRight, setLeft, getBalance]
              norm_num
              split_ifs with c1 c2
              · refine balanced_plug rest _ _ hrest ?_ ?_
                · simp only [setLeftBalance, setRightBalance, setBalance, Balanced, height]
                  refine ⟨⟨hpl, hnl, ?_, ?_, ?_⟩, ⟨hnr, hsib, ?_, ?_, ?_⟩, ?_, ?_, ?_⟩ <;> omega
                · simp only [setLeftBalance, setRightBalance, setBalance, height]; omega
              · refine balanced_plug rest _ _ hrest ?_ ?_
                · simp only [setLeftBalance, setRightBalance, setBalance, Balanced, height]
                  refine ⟨⟨hpl, hnl, ?_, ?_, ?_⟩, ⟨hnr, hsib, ?_, ?_, ?_⟩, ?_, ?_, ?_⟩ <;> omega
                · simp only [setLeftBalance, setRightBalance, setBalance, height]; omega
              · refine balanced_plug rest _ _ hrest ?_ ?_
                · simp only [setLeftBalance, setRightBalance, setBalance, Balanced, height]
                  refine ⟨⟨hpl, hnl, ?_, ?_, ?_⟩, ⟨hnr, hsib, ?_, ?_, ?_⟩, ?_, ?_, ?_⟩ <;> omega
                · simp only [setLeftBalance, setRightBalance, setBalance, height]; omega
        · simp only [insertFix, wrap8]
          norm_num
          refine ih _ _ (1 + max h (height sib)) hrest ?_ ?_ (fun _ => rfl) (fun hc => by cases hc)
          · simp only [Balanced, height]
            refine ⟨hb, hsib, ?_, ?_, ?_⟩ <;> omega
          · simp only [height]; omega
        · simp only [insertFix, wrap8]
          norm_num
          refine balanced_plug rest _ _ hrest ?_ ?_
          · simp only [Balanced, height]
            refine ⟨hb, hsib, ?_, ?_, ?_⟩ <;> omega
          · simp only [height]; omega
      · simp only at hbal
        have hcase : gb = -1 ∨ gb = 0 ∨ gb = 1 := by omega
        rcases hcase with rfl | rfl | rfl
        · simp only [insertFix, wrap8]
          norm_num
          refine balanced_plug rest _ _ hrest ?_ ?_
          · simp only [Balanced, height]
            refine ⟨hsib, hb, ?_, ?_, ?_⟩ <;> omega
          · simp only [height]; omega
        · simp only [insertFix, wrap8]
          norm_num
          refine ih _ _ (1 + max h (height sib)) hrest ?_ ?_ (fun hc => by cases hc) (fun _ => rfl)
          · simp only [Balanced, height]
            refine ⟨hsib, hb, ?_, ?_, ?_⟩ <;> omega
          · simp only [height]; omega
        · cases s
          · have hpb1 := hl rfl
            subst hpb1
            cases pl with
            | nil => simp only [height] at hpb; omega
            | node nl nk nv nb nr =>
              simp only [Balanced] at hpl
              obtain ⟨hnl, hnr, hnb, hnlo, hnhi⟩ := hpl
              simp only [height] at hh hpb
              simp only [insertFix, wrap8, rotateLeft, rotateRight, setRight, getBalance]
              norm_num
              split_ifs with c1 c2
              · refine balanced_plug rest _ _ hrest ?_ ?_
                · simp only [setLeftBalance, setRightBalance, setBalance, Balanced, height]
                  refine ⟨⟨hsib, hnl, ?_, ?_, ?_⟩, ⟨hnr, hpr, ?_, ?_, ?_⟩, ?_, ?_, ?_⟩ <;> omega
                · simp only [setLeftBalance, setRightBalance, setBalance, height]; omega
              · refine balanced_plug rest _ _ hrest ?_ ?_
                · simp only [setLeftBalance, setRightBalance, setBalance, Balanced, height]
                  refine ⟨⟨hsib, hnl, ?_, ?_, ?_⟩, ⟨hnr, hpr, ?_, ?_, ?_⟩, ?_, ?_, ?_⟩ <;> omega
                · simp only [setLeftBalance, setRightBalance, setBalance, height]; omega
              · refine balanced_plug rest _ _ hrest ?_ ?_
                · simp only [setLeftBalance, setRightBalance, setBalance, Balanced, height]
                  refine ⟨⟨hsib, hnl, ?_, ?_, ?_⟩, ⟨hnr, hpr, ?_, ?_, ?_⟩, ?_, ?_, ?_⟩ <;> omega
                · simp only [setLeftBalance, setRightBalance, setBalance, height]; omega
          · have hpb1 := hr rfl
            subst hpb1
            simp only [insertFix, wrap8, rotateLeft, setBalance, setLeftBalance]
            norm_num
            refine balanced_plug rest _ _ hrest ?_ ?_
            · simp only [Balanced, height]
              refine ⟨⟨hsib, hpl, ?_, ?_, ?_⟩, hpr, ?_, ?_, ?_⟩ <;> omega
            · simp only [height]; omega

theorem heightBalanced_of_balanced (t : AVLNode K V) (hb : Balanced t) : HeightBalanced t := by
  induction t with
  | nil => trivial
  | node l k v b r ihl ihr =>
    simp only [Balanced] at hb
    simp only [HeightBalanced]
    refine ⟨ihl hb.1, ihr hb.2.1, ?_, ?_⟩ <;> omega

theorem balanceInRange_of_balanced (t : AVLNode K V) (hb : Balanced t) : BalanceInRange t := by
  induction t with
  | nil => trivial
  | node l k v b r ihl ihr =>
    simp only [Balanced] at hb
    exact ⟨ihl hb.1, ihr hb.2.1, hb.2.2.2.1, hb.2.2.2.2⟩

theorem insert_balanced [LinearOrder K] (t : AVLNode K V) (k : K) (v : V) (hb : Balanced t) :
    Balanced (insert t k v) := by
  cases t with
  | nil => simp [insert, Balanced, height]
  | node tl tk tv tb tr =>
    have hd := descend_balanced k (node tl tk tv tb tr) [] trivial hb
    have hsd := descend_sides k (node tl tk tv tb tr) [] (fun f hf => by cases hf)
    unfold insert
    simp only
    rcases hdes : descend k (node tl tk tv tb tr) [] with ⟨p, c⟩
    rw [hdes] at hd hsd
    simp only at hd hsd ⊢
    obtain ⟨hp, hc⟩ := hd
    cases c with
    | node l key v0 b r =>
      simp only
      refine balanced_plug p _ _ hp ?_ ?_
      · simpa [Balanced] using hc
      · simp [height]
    | nil =>
      cases p with
      | nil => simp [Balanced, height]
      | cons f rest =>
        obtain ⟨side, fk, fv, fb, sib⟩ := f
        have hside := hsd _ (List.mem_cons_self _ _)
        simp only [BalancedPath, height] at hp
        obtain ⟨hsib, hlo, hhi, hbal, hrest⟩ := hp
        cases side
        · have hlt : k < fk := by simpa using hside
          simp only at hbal
          simp only [hlt, if_true, Frame.fill, setLeft, updateBalance, getBalance, wrap8]
          have hcase : fb = 0 ∨ fb = 1 := by omega
          rcases hcase with rfl | rfl
          · norm_num
            refine insertFix_balanced rest _ _ _ hrest ?_ ?_ (fun _ => rfl)
              (fun hc => by cases hc)
            · simp only [Balanced, height]
              refine ⟨⟨trivial, trivial, ?_, ?_, ?_⟩, hsib, ?_, ?_, ?_⟩ <;> omega
            · simp only [height]; omega
          · norm_num
            refine balanced_plug rest _ _ hrest ?_ ?_
            · simp only [Balanced, height]
              refine ⟨⟨trivial, trivial, ?_, ?_, ?_⟩, hsib, ?_, ?_, ?_⟩ <;> omega
            · simp only [height]; omega
        · have hlt : ¬ k < fk := by
            intro hc
            exact absurd (hside.mpr hc) (by simp)
          simp only at hbal
          simp only [hlt, if_false, Frame.fill, setRight, updateBalance, getBalance, wrap8]
          have hcase : fb = 0 ∨ fb = -1 := by omega
          rcases hcase with rfl | rfl
          · norm_num
            refine insertFix_balanced rest _ _ _ hrest ?_ ?_ (fun hc => by cases hc)
              (fun _ => rfl)
            · simp only [Balanced, height]
              refine ⟨hsib, ⟨trivial, trivial, ?_, ?_, ?_⟩, ?_, ?_, ?_⟩ <;> omega
            · simp only [height]; omega
          · norm_num
            refine balanced_plug rest _ _ hrest ?_ ?_
            · simp only [Balanced, height]
              refine ⟨hsib, ⟨trivial, trivial, ?_, ?_, ?_⟩, ?_, ?_, ?_⟩ <;> omega
            · simp only [height]; omega

/-- C1: `insert` preserves the AVL invariant. If at every node of the tree the stored balance
equals height(right) - height(left) and lies in {-1,0,1}, then the same holds at every node
of the tree after `insert(k, v)`, and the heights of the two subtrees of every node differ by
at most 1. The ordering of the keys is not needed for this. -/
theorem insert_preserves_avl [LinearOrder K] (t : AVLNode K V) (k : K) (v : V)
    (hb : Balanced t) : Balanced (insert t k v) ∧ HeightBalanced (insert t k v) :=
  ⟨insert_balanced t k v hb, heightBalanced_of_balanced _ (insert_balanced t k v hb)⟩

theorem insert_preserves_avl_witness :
    Balanced sampleTree ∧ Balanced (insert sampleTree 5 50) ∧
      HeightBalanced (insert sampleTree 5 50) :=
  ⟨by simp [sampleTree, Balanced, height],
    insert_preserves_avl sampleTree 5 50 (by simp [sampleTree, Balanced, height])⟩

/-! ## `remove` returns on a balanced tree -/

theorem removeFix_completes (path : List (Frame K V)) :
    (∀ f ∈ path, SafeFrame f) → ∀ t : AVLNode K V,
      ∃ t', removeFix path t
        (match path with
         | [] => 0
         | f :: _ => sideDiff f.side) = some t' := by
  induction path with
  | nil => intro _ t; exact ⟨t, rfl⟩
  | cons f rest ih =>
    intro hs t
    have ihr := ih (fun g hg => hs g (List.mem_cons_of_mem _ hg))
    obtain ⟨side, fk, fv, fb, sib⟩ := f
    have hf := hs _ (List.mem_cons_self _ _)
    simp only [SafeFrame] at hf
    obtain ⟨hlo, hhi, hsafe⟩ := hf
    have hcase : fb = -1 ∨ fb = 0 ∨ fb = 1 := by omega
    cases side
    · rcases hcase with rfl | rfl | rfl
      · simp only [removeFix, sideDiff, Frame.fill, updateBalance, getBalance, wrap8]
        norm_num
        exact ihr _
      · simp only [removeFix, sideDiff, Frame.fill, updateBalance, getBalance, wrap8]
        norm_num
      · simp only at hsafe
        obtain ⟨h1, h2⟩ := hsafe trivial
        cases sib with
        | nil => simp [isNil] at h1
        | node cl ck cv cb cr =>
          simp only [removeFix, sideDiff, Frame.fill, updateBalance, getBalance, wrap8,
            getRight]
          norm_num
          split_ifs with c1
          · exact ihr _
          · cases cl with
            | nil => simp [getBalance, getLeft, isNil] at h2; omega
            | node gl gk gv gb gr => exact ihr _
    · rcases hcase with rfl | rfl | rfl
      · simp only at hsafe
        obtain ⟨h1, h2⟩ := hsafe trivial
        cases sib with
        | nil => simp [isNil] at h1
        | node cl ck cv cb cr =>
          simp only [removeFix, sideDiff, Frame.fill, updateBalance, getBalance, wrap8,
            getLeft]
          norm_num
          split_ifs with c1
          · exact ihr _
          · cases cr with
            | nil => simp [getBalance, getRight, isNil] at h2; omega
            | node gl gk gv gb gr => exact ihr _
      · simp only [removeFix, sideDiff, Frame.fill, updateBalance, getBalance, wrap8]
        norm_num
      · simp only [removeFix, sideDiff, Frame.fill, updateBalance, getBalance, wrap8]
        norm_num
        exact ihr _

theorem safe_of_balancedPath (p : List (Frame K V)) :
    ∀ h : Nat, BalancedPath p h → ∀ f ∈ p, SafeFrame f := by
  induction p with
  | nil => intro h _ f hf; cases hf
  | cons g rest ih =>
    intro h hp f hf
    simp only [BalancedPath] at hp
    obtain ⟨hsib, hlo, hhi, hbal, hrest⟩ := hp
    rcases List.mem_cons.mp hf with rfl | hf
    · obtain ⟨side, fk, fv, fb, sib⟩ := f
      simp only [SafeFrame]
      refine ⟨hlo, hhi, ?_⟩
      cases side
      · simp only at hbal ⊢
        intro h1
        cases sib with
        | nil => simp only [height] at hbal; omega
        | node cl ck cv cb cr =>
          refine ⟨rfl, ?_⟩
          simp only [getBalance, getLeft]
          intro hneg
          simp only [Balanced] at hsib
          cases cl with
          | nil => simp only [height] at hsib; omega
          | node _ _ _ _ _ => rfl
      · simp only at hbal ⊢
        intro h1
        cases sib with
        | nil => simp only [height] at hbal; omega
        | node cl ck cv cb cr =>
          refine ⟨rfl, ?_⟩
          simp only [getBalance, getRight]
          intro hpos
          simp only [Balanced] at hsib
          cases cr with
          | nil => simp only [height] at hsib; omega
          | node _ _ _ _ _ => rfl
    · exact ih _ hrest f hf

theorem rightmost_balanced (t : AVLNode K V) :
    ∀ (path : List (Frame K V)), BalancedPath path (height t) → Balanced t →
      BalancedPath (rightmost t path).1 (height (rightmost t path).2) := by
  induction t with
  | nil => intro path hp _; simpa [rightmost] using hp
  | node l k v b r _ ihr =>
    intro path hp hb
    cases r with
    | nil => simpa [rightmost] using hp
    | node rl rk rv rb rr =>
      rw [rightmost_node_node]
      simp only [Balanced] at hb
      obtain ⟨hl, hr, hbal, hlo, hhi⟩ := hb
      apply ihr
      · simp only [BalancedPath]
        refine ⟨hl, hlo, hhi, hbal, ?_⟩
        simpa [height, Nat.max_comm] using hp
      · simpa [Balanced] using hr

theorem removeAt_completes (path : List (Frame K V)) (cur : AVLNode K V)
    (hs : ∀ f ∈ path, SafeFrame f) : ∃ t', removeAt path cur = some t' := by
  unfold removeAt
  cases path with
  | nil => exact ⟨_, rfl⟩
  | cons f rest => exact removeFix_completes (f :: rest) hs _

theorem remove_completes [LinearOrder K] (t : AVLNode K V) (k : K) (hb : Balanced t) :
    ∃ t', remove t k = some t' := by
  have hd := descend_balanced k t [] trivial hb
  unfold remove internalFind
  rcases hdes : descend k t [] with ⟨p, c⟩
  rw [hdes] at hd
  simp only at hd ⊢
  obtain ⟨hp, hc⟩ := hd
  have hsp := safe_of_balancedPath p _ hp
  cases c with
  | nil => exact ⟨t, rfl⟩
  | node l key v0 b r =>
    simp only
    split_ifs with h2
    · have hc' := hc
      simp only [Balanced] at hc'
      obtain ⟨hl, hr, hbal, hlo, hhi⟩ := hc'
      have hin := rightmost_balanced l [] trivial hl
      have hnn := (rightmost_spec l []).2.2.2
      unfold predecessor
      rcases hpd : rightmost l [] with ⟨inner, pc⟩
      rw [hpd] at hin hnn
      simp only at hin hnn ⊢
      cases pc with
      | nil =>
        have hln := hnn rfl
        subst hln
        simp [isNil] at h2
      | node pl pk pv pb pr =>
        simp only [nodeSwap, baseNodeSwap]
        apply removeAt_completes
        intro f hf
        rcases List.mem_append.mp hf with hf | hf
        · exact safe_of_balancedPath inner _ hin f hf
        · rcases List.mem_cons.mp hf with rfl | hf
          · have hfr : BalancedPath (⟨Side.left, key, v0, b, r⟩ :: p) (height l) := by
              simp only [BalancedPath]
              exact ⟨hr, hlo, hhi, hbal, by simpa [height] using hp⟩
            have hsf := safe_of_balancedPath _ _ hfr _ (List.mem_cons_self _ _)
            simpa [SafeFrame] using hsf
          · exact hsp f hf
    · exact removeAt_completes p _ hsp

/-- C8: removing a present key removes exactly that key. On a BST-ordered tree in which every
stored balance equals height(right) - height(left) and lies in {-1,0,1}, `remove(k)` for a
key of the tree returns, and the in-order entries afterwards are the entries before without
the entry of `k`: `k` is no longer found, every other key is found exactly as before, and
the number of nodes has dropped by one. -/
theorem remove_present [LinearOrder K] (t : AVLNode K V) (k : K) (hs : BST t)
    (hb : Balanced t) (hk : k ∈ keys t) :
    ∃ t', remove t k = some t' ∧
      entries t' = (entries t).filter (fun e => e.1 ≠ k) ∧
      find t' k = none ∧ (∀ k', k' ≠ k → find t' k' = find t k') ∧
      size t' + 1 = size t := by
  obtain ⟨t', hrem⟩ := remove_completes t k hb
  have hs' := bst_remove t k t' hs hrem
  obtain ⟨L, R, h1, h2, hL, hR⟩ := remove_entries t k t' hs hrem
  rcases h1 with ⟨h1, -⟩ | ⟨v0, h1⟩
  · exact absurd (by rw [keys, h1] at hk; exact hk) (not_mem_keys_of_bounds L R k hL hR)
  · refine ⟨t', hrem, ?_, ?_, ?_, ?_⟩
    · have hfL : L.filter (fun e => e.1 ≠ k) = L :=
        List.filter_eq_self.mpr (fun e he => by simpa using ne_of_lt (hL e he))
      have hfR : R.filter (fun e => e.1 ≠ k) = R :=
        List.filter_eq_self.mpr (fun e he => by simpa using ne_of_gt (hR e he))
      rw [h2, h1, List.filter_append, List.filter_cons, hfL, hfR]
      simp
    · cases hfind : find t' k with
      | none => rfl
      | some v =>
        have hmem := find_some_mem t' k v hfind
        rw [h2] at hmem
        exact absurd (List.mem_map_of_mem Prod.fst hmem)
          (not_mem_keys_of_bounds L R k hL hR)
    · intro k' hne
      apply Option.ext
      intro v
      simp only [Option.mem_def]
      rw [find_eq_some_iff t' k' v hs', find_eq_some_iff t k' v hs, h1, h2]
      simp [hne]
    · rw [size_eq_length, size_eq_length, h1, h2]
      simp
      omega

theorem remove_present_witness :
    BST sampleTree ∧ Balanced sampleTree ∧ 2 ∈ keys sampleTree ∧
      ∃ t', remove sampleTree 2 = some t' ∧
        entries t' = (entries sampleTree).filter (fun e => e.1 ≠ 2) ∧
        find t' 2 = none ∧ (∀ k', k' ≠ 2 → find t' k' = find sampleTree k') ∧
        size t' + 1 = size sampleTree :=
  ⟨by decide, by simp [sampleTree, Balanced, height], by decide,
    remove_present sampleTree 2 (by decide) (by simp [sampleTree, Balanced, height])
      (by decide)⟩

/-! ## Where `removeFix` leaves the balance invariant -/

/-- C2: evaluation at a failing input. The tree built by insert(1), insert(2), insert(3),
insert(4) is BST-ordered and balanced; `remove(1)` makes the balance of node 2 reach +2 with
a right child of balance +1, rotates left and stores -1 in node 2, which is then a leaf. -/
theorem remove_breaks_stored_balance :
    runOps (insertOps [1, 2, 3, 4]) nil = some chainTree ∧
      BST chainTree ∧ Balanced chainTree ∧
      remove chainTree 1 =
        some (node (node nil 2 0 (-1) nil) 3 0 0 (node nil 4 0 0 nil)) ∧
      ¬ Balanced (node (node nil 2 0 (-1) nil) 3 0 0 (node nil 4 0 0 nil) :
        AVLNode Nat Nat) := by
  refine ⟨by decide, by decide, by simp [chainTree, Balanced, height], by decide, ?_⟩
  simp [Balanced, height]

/-- C3: evaluation at a failing input. The 13-key tree `avl13` is BST-ordered and balanced;
`remove(13)` rotates at node 12 although the height below it does not change, goes on to
node 8 and rotates there too, and leaves node 8 with a left subtree of height 1 and a right
subtree of height 3. -/
theorem remove_breaks_height_balance :
    runOps (insertOps [8, 3, 12, 2, 6, 10, 13, 1, 5, 7, 9, 11, 4]) nil = some avl13 ∧
      BST avl13 ∧ Balanced avl13 ∧
      remove avl13 13 = some avl13After ∧ ¬ HeightBalanced avl13After := by
  refine ⟨by decide, by decide, by simp [avl13, Balanced, height], by decide, ?_⟩
  simp [avl13After, HeightBalanced, height]

/-- C4: evaluation at a failing input. After insert(3), insert(2), insert(4), insert(1),
remove(4), insert(5), every call having returned, node 3 stores the balance 2. -/
theorem balance_two_at_rest :
    runOps [Op.ins 3 0, Op.ins 2 0, Op.ins 4 0, Op.ins 1 0, Op.rem 4, Op.ins 5 0] nil =
        some (node (node nil 1 0 0 nil) 2 0 1 (node nil 3 0 2 (node nil 5 0 0 nil))) ∧
      ¬ BalanceInRange
        (node (node nil 1 0 0 nil) 2 0 1 (node nil 3 0 2 (node nil 5 0 0 nil)) :
          AVLNode Nat Nat) := by
  refine ⟨by decide, ?_⟩
  simp [BalanceInRange]

/-- C10: evaluation at a failing input. After the keys 1, 2, 3, 5, 6, 4, 7 are inserted into
the empty tree, the calls remove(1), remove(6), remove(7), remove(2), remove(3) return and
leave node 5 with the stored balance 1, the left child 4 and no right child; remove(4) then
makes that balance 2 and reads the balance of the absent right child. -/
theorem removal_completeness_fails :
    runOps (insertOps [1, 2, 3, 5, 6, 4, 7] ++ removeOps [1, 6, 7, 2, 3]) nil =
        some (node (node nil 4 0 0 nil) 5 0 1 nil) ∧
      remove (node (node nil 4 0 0 nil) 5 0 1 nil : AVLNode Nat Nat) 4 = none ∧
      runOps (insertOps [1, 2, 3, 5, 6, 4, 7] ++ removeOps [1, 6, 7, 2, 3, 4, 5]) nil = none := by
  refine ⟨by decide, by decide, by decide⟩

end AVLTree

namespace EqualPaths

open Node

variable {α : Type}

/-! ## `getLeafHeight` is the height, `equalPaths` compares every leaf with it -/

theorem isNull_iff (t : Node α) : isNull t = true ↔ t = null := by
  cases t <;> simp [isNull]

theorem height_pos_of_not_null (t : Node α) (h : isNull t = false) : 1 ≤ height t := by
  cases t with
  | null => simp [isNull] at h
  | mk l k r => simp [height]

theorem getLeafHeight_eq_height (t : Node α) : getLeafHeight t = (height t : Int) := by
  induction t with
  | null => rfl
  | mk l k r ihl ihr =>
    rw [getLeafHeight, ihl, ihr]
    cases hl : isNull l <;> cases hr : isNull r
    · have h1 := height_pos_of_not_null l hl
      have h2 := height_pos_of_not_null r hr
      have h3 : (height l : Int) ≠ 0 ∧ (height r : Int) ≠ 0 := by omega
      simp only [height, Bool.not_false, Bool.and_self, Bool.false_and, if_true, h3,
        and_self, Bool.false_eq_true, if_false]
      push_cast
      omega
    · have hr0 : height r = 0 := by rw [(isNull_iff r).mp hr]; rfl
      simp [height, hr0]
      omega
    · have hl0 : height l = 0 := by rw [(isNull_iff l).mp hl]; rfl
      simp [height, hl0]
      omega
    · have hl0 : height l = 0 := by rw [(isNull_iff l).mp hl]; rfl
      have hr0 : height r = 0 := by rw [(isNull_iff r).mp hr]; rfl
      simp [height, hl0, hr0]

theorem checkEqualPaths_iff (t : Node α) :
    ∀ (d : Nat) (target : Int),
      checkEqualPaths t target ((d : Int) + 1) = true ↔
        ∀ x ∈ leafDepths t d, (x : Int) + 1 = target := by
  induction t with
  | null => intro d target; simp [checkEqualPaths, leafDepths]
  | mk l k r ihl ihr =>
    intro d target
    have hl := ihl (d + 1) target
    have hr := ihr (d + 1) target
    push_cast at hl hr
    rw [checkEqualPaths, leafDepths]
    cases hnl : isNull l <;> cases hnr : isNull r
    · simp only [Bool.and_self, Bool.false_eq_true, if_false, Bool.not_false, if_true,
        Bool.and_eq_true, hl, hr, List.mem_append]
      constructor
      · rintro ⟨h1, h2⟩ x (hx | hx)
        · exact h1 x hx
        · exact h2 x hx
      · intro h
        exact ⟨fun x hx => h x (Or.inl hx), fun x hx => h x (Or.inr hx)⟩
    · have hrn := (isNull_iff r).mp hnr
      subst hrn
      simp [hl, leafDepths]
    · have hln := (isNull_iff l).mp hnl
      subst hln
      simp [hr, leafDepths]
    · simp

theorem deepest_leaf (t : Node α) :
    ∀ d : Nat, isNull t = false → ∃ m ∈ leafDepths t d, m + 1 = d + height t := by
  induction t with
  | null => intro d h; simp [isNull] at h
  | mk l k r ihl ihr =>
    intro d _
    rw [leafDepths]
    cases hnl : isNull l <;> cases hnr : isNull r
    · simp only [Bool.and_self, Bool.false_eq_true, if_false, List.mem_append, height]
      rcases Nat.le_total (height r) (height l) with hle | hle
      · obtain ⟨m, hm, hmd⟩ := ihl (d + 1) hnl
        exact ⟨m, Or.inl hm, by omega⟩
      · obtain ⟨m, hm, hmd⟩ := ihr (d + 1) hnr
        exact ⟨m, Or.inr hm, by omega⟩
    · have hrn := (isNull_iff r).mp hnr
      subst hrn
      obtain ⟨m, hm, hmd⟩ := ihl (d + 1) hnl
      refine ⟨m, by simpa [hnl, leafDepths] using hm, ?_⟩
      simp only [height]
      omega
    · have hln := (isNull_iff l).mp hnl
      subst hln
      obtain ⟨m, hm, hmd⟩ := ihr (d + 1) hnr
      refine ⟨m, by simpa [hnr, isNull, leafDepths] using hm, ?_⟩
      simp only [height]
      omega
    · have hln := (isNull_iff l).mp hnl
      have hrn := (isNull_iff r).mp hnr
      subst hln hrn
      exact ⟨d, by simp, by simp [height]⟩

/-- C13: `equalPaths` decides leaf-depth equality. For every binary tree, `equalPaths`
returns true exactly when all leaves lie at the same depth from the root. It returns true
for the empty tree, for a single node and for a root with only a left child, and false for a
root whose left child is a leaf and whose right child has one further left child. -/
theorem equalPaths_iff_leaves_same_depth (t : Node α) :
    (equalPaths t = true ↔ AllLeavesSameDepth t) ∧
      equalPaths (null : Node α) = true ∧
      (∀ a : α, equalPaths (mk null a null) = true) ∧
      (∀ a b : α, equalPaths (mk (mk null b null) a null) = true) ∧
      (∀ a b c d : α,
        equalPaths (mk (mk null b null) a (mk (mk null d null) c null)) = false) := by
  refine ⟨?_, rfl, fun _ => rfl, fun _ _ => rfl, fun _ _ _ _ => rfl⟩
  unfold equalPaths AllLeavesSameDepth
  cases hn : isNull t
  · simp only [Bool.false_eq_true, if_false]
    have hc := checkEqualPaths_iff t 0 (getLeafHeight t)
    simp only [Nat.cast_zero, zero_add] at hc
    rw [hc]
    constructor
    · intro h x hx y hy
      have h1 := h x hx
      have h2 := h y hy
      omega
    · intro h x hx
      obtain ⟨m, hm, hmd⟩ := deepest_leaf t 0 hn
      have hxm := h x hx m hm
      rw [getLeafHeight_eq_height]
      omega
  · have htn := (isNull_iff t).mp hn
    subst htn
    simp [leafDepths]

/-- C16, as the code has it: for a node with two children `getLeafHeight` returns the larger
of the values computed for the two children plus 1, whether or not the two agree; the value
computed for a present child is never 0, so 0 is not returned for such a node. -/
theorem getLeafHeight_two_children (l r : Node α) (k : α) (hl : isNull l = false)
    (hr : isNull r = false) :
    getLeafHeight (mk l k r) = max (getLeafHeight l) (getLeafHeight r) + 1 ∧
      getLeafHeight l ≠ 0 ∧ getLeafHeight r ≠ 0 ∧ getLeafHeight (mk l k r) ≠ 0 := by
  have h1 := height_pos_of_not_null l hl
  have h2 := height_pos_of_not_null r hr
  have e1 := getLeafHeight_eq_height l
  have e2 := getLeafHeight_eq_height r
  have e3 := getLeafHeight_eq_height (mk l k r)
  simp only [height] at e3
  push_cast at e3
  refine ⟨?_, ?_, ?_, ?_⟩ <;> omega

theorem getLeafHeight_two_children_witness :
    isNull (mk null 2 null : Node Nat) = false ∧
      isNull (mk (mk null 4 null) 3 null : Node Nat) = false ∧
      getLeafHeight unevenTree =
        max (getLeafHeight (mk null 2 null : Node Nat))
          (getLeafHeight (mk (mk null 4 null) 3 null : Node Nat)) + 1 :=
  ⟨rfl, rfl, (getLeafHeight_two_children (mk null 2 null) (mk (mk null 4 null) 3 null) 1
    rfl rfl).1⟩

/-- C16 as stated fails: the root of `unevenTree` has two children for which `getLeafHeight`
computes the different values 1 and 2, and `getLeafHeight` returns 3 for it, not 0. -/
theorem getLeafHeight_mismatch_not_zero :
    getLeafHeight (mk null 2 null : Node Nat) = 1 ∧
      getLeafHeight (mk (mk null 4 null) 3 null : Node Nat) = 2 ∧
      getLeafHeight unevenTree = 3 ∧ getLeafHeight unevenTree ≠ 0 := by
  refine ⟨by decide, by decide, by decide, by decide⟩

/-- C19: `getLeafHeight` computes the plain tree height. For every tree it returns the
number of nodes on the longest path from the root to a leaf, which is 0 for the empty tree
and at least 1 otherwise; at a node with two children the values computed for both children
are not 0, so the branch that returns 0 is never taken. -/
theorem getLeafHeight_is_height (t : Node α) :
    getLeafHeight t = (height t : Int) ∧ getLeafHeight (null : Node α) = 0 ∧
      (isNull t = false → 1 ≤ getLeafHeight t) ∧
      (∀ l k r, t = mk l k r → isNull l = false → isNull r = false →
        getLeafHeight l ≠ 0 ∧ getLeafHeight r ≠ 0) := by
  refine ⟨getLeafHeight_eq_height t, rfl, ?_, ?_⟩
  · intro h
    have h1 := height_pos_of_not_null t h
    rw [getLeafHeight_eq_height]
    omega
  · intro l k r _ hl hr
    have h1 := height_pos_of_not_null l hl
    have h2 := height_pos_of_not_null r hr
    rw [getLeafHeight_eq_height, getLeafHeight_eq_height]
    omega

theorem getLeafHeight_is_height_witness :
    isNull unevenTree = false ∧ getLeafHeight unevenTree = (height unevenTree : Int) ∧
      1 ≤ getLeafHeight unevenTree :=
  ⟨rfl, (getLeafHeight_is_height unevenTree).1, (getLeafHeight_is_height unevenTree).2.2.1 rfl⟩

end EqualPaths

namespace AVLTree

open AVLNode

variable {K V : Type}

/-! ## Three keys, the node swap, the rotations -/

/-- C12: three-key rebalancing. For keys a < b < c, inserted into the empty tree in any of
the six orders, the tree has root b with left child a and right child c, no other node, and
the three stored balances are 0. For the order a, b, c the result is the left rotation at a
of the chain a, b, c (with the balances of a and b then set to 0); for the order c, a, b it
is the left rotation at a followed by the right rotation at c. -/
theorem three_key_rebalancing [LinearOrder K] (a b c : K) (va vb vc : V) (hab : a < b)
    (hbc : b < c) :
    insert (insert (insert nil a va) b vb) c vc =
        node (node nil a va 0 nil) b vb 0 (node nil c vc 0 nil) ∧
      insert (insert (insert nil a va) c vc) b vb =
        node (node nil a va 0 nil) b vb 0 (node nil c vc 0 nil) ∧
      insert (insert (insert nil b vb) a va) c vc =
        node (node nil a va 0 nil) b vb 0 (node nil c vc 0 nil) ∧
      insert (insert (insert nil b vb) c vc) a va =
        node (node nil a va 0 nil) b vb 0 (node nil c vc 0 nil) ∧
      insert (insert (insert nil c vc) a va) b vb =
        node (node nil a va 0 nil) b vb 0 (node nil c vc 0 nil) ∧
      insert (insert (insert nil c vc) b vb) a va =
        node (node nil a va 0 nil) b vb 0 (node nil c vc 0 nil) ∧
      insert (insert (insert nil a va) b vb) c vc =
        setLeftBalance 0 (setBalance 0
          (rotateLeft (node nil a va 2 (node nil b vb 1 (node nil c vc 0 nil))))) ∧
      insert (insert (insert nil c vc) a va) b vb =
        setBalance 0 (setRightBalance 0 (setLeftBalance 0
          (rotateRight (setLeft (rotateLeft (node nil a va 1 (node nil b vb 0 nil)))
            (node (node nil a va 1 (node nil b vb 0 nil)) c vc (-2) nil))))) := by
  have hac : a < c := lt_trans hab hbc
  have n1 : ¬ b < a := not_lt.mpr (le_of_lt hab)
  have n2 : ¬ c < b := not_lt.mpr (le_of_lt hbc)
  have n3 : ¬ c < a := not_lt.mpr (le_of_lt hac)
  have e1 : ¬ b = a := ne_of_gt hab
  have e2 : ¬ c = b := ne_of_gt hbc
  have e3 : ¬ c = a := ne_of_gt hac
  have e4 : ¬ a = b := ne_of_lt hab
  have e5 : ¬ b = c := ne_of_lt hbc
  have e6 : ¬ a = c := ne_of_lt hac
  refine ⟨?_, ?_, ?_, ?_, ?_, ?_, ?_, ?_⟩ <;>
    simp [insert, descend, insertFix, plug, Frame.fill, setLeft, setRight, updateBalance,
      getBalance, setBalance, setLeftBalance, setRightBalance, rotateLeft, rotateRight, wrap8,
      hab, hbc, hac, n1, n2, n3, e1, e2, e3, e4, e5, e6]

theorem three_key_rebalancing_witness :
    insert (insert (insert (nil : AVLNode Nat Nat) 1 10) 2 20) 3 30 =
        node (node nil 1 10 0 nil) 2 20 0 (node nil 3 30 0 nil) ∧
      insert (insert (insert (nil : AVLNode Nat Nat) 3 30) 1 10) 2 20 =
        node (node nil 1 10 0 nil) 2 20 0 (node nil 3 30 0 nil) :=
  ⟨(three_key_rebalancing 1 2 3 10 20 30 (by decide) (by decide)).1,
    (three_key_rebalancing 1 2 3 10 20 30 (by decide) (by decide)).2.2.2.2.1⟩

/-- C15, as the code has it: after `nodeSwap(n1, n2)` the two nodes have exchanged tree
positions and each keeps its own key and value, and each node stores the balance that the
other node held before the call: the balance stays with the tree position. -/
theorem nodeSwap_balance_stays_with_position (n1 n2 : Cell K V) :
    (nodeSwap n1 n2).1.key = n2.key ∧ (nodeSwap n1 n2).1.value = n2.value ∧
      (nodeSwap n1 n2).1.balance = n1.balance ∧
      (nodeSwap n1 n2).2.key = n1.key ∧ (nodeSwap n1 n2).2.value = n1.value ∧
      (nodeSwap n1 n2).2.balance = n2.balance :=
  ⟨rfl, rfl, rfl, rfl, rfl, rfl⟩

/-- C15 as stated fails: the node with key 1 holds the balance 1 before the call; after
`nodeSwap` it stands at the former place of the node with key 2 and holds the balance -1,
which is not the balance it held before. -/
theorem nodeSwap_balance_follows_identity_fails :
    (nodeSwap (⟨1, 10, 1⟩ : Cell Nat Nat) ⟨2, 20, -1⟩).2.key = 1 ∧
      (nodeSwap (⟨1, 10, 1⟩ : Cell Nat Nat) ⟨2, 20, -1⟩).2.value = 10 ∧
      (nodeSwap (⟨1, 10, 1⟩ : Cell Nat Nat) ⟨2, 20, -1⟩).2.balance = -1 ∧
      (nodeSwap (⟨1, 10, 1⟩ : Cell Nat Nat) ⟨2, 20, -1⟩).2.balance ≠
        (⟨1, 10, 1⟩ : Cell Nat Nat).balance := by
  refine ⟨rfl, rfl, rfl, by decide⟩

theorem balances_fill (f : Frame K V) (x y : AVLNode K V) (h : balances x = balances y) :
    balances (f.fill x) = balances (f.fill y) := by
  unfold Frame.fill
  cases f.side <;> simp [balances, h]

theorem balances_plug (p : List (Frame K V)) (x y : AVLNode K V)
    (h : balances x = balances y) : balances (plug p x) = balances (plug p y) := by
  induction p generalizing x y with
  | nil => simpa [plug] using h
  | cons f rest ih => exact ih _ _ (balances_fill f x y h)

/-- C17: the rotations are the specified pure restructuring. For a node x with left subtree
a whose right child y has the subtrees b and c, after `rotateLeft(x)` the node y stands where
x stood (at the root when x had no parent, else on the same side of the former parent of x),
x is the left child of y, b is the right subtree of x, a is still the left subtree of x and
c the right subtree of y; the in-order sequence of entries of the whole tree and the stored
balance of every node are unchanged. `rotateRight` is the mirror image. -/
theorem rotations_restructure (a b c : AVLNode K V) (xk yk : K) (xv yv : V) (xb yb : Int)
    (path : List (Frame K V)) :
    rotateLeft (node a xk xv xb (node b yk yv yb c)) =
        node (node a xk xv xb b) yk yv yb c ∧
      plug [] (rotateLeft (node a xk xv xb (node b yk yv yb c))) =
        node (node a xk xv xb b) yk yv yb c ∧
      (∀ (f : Frame K V) (rest : List (Frame K V)),
        plug (f :: rest) (rotateLeft (node a xk xv xb (node b yk yv yb c))) =
          plug rest (f.fill (node (node a xk xv xb b) yk yv yb c))) ∧
      entries (plug path (rotateLeft (node a xk xv xb (node b yk yv yb c)))) =
        entries (plug path (node a xk xv xb (node b yk yv yb c))) ∧
      balances (plug path (rotateLeft (node a xk xv xb (node b yk yv yb c)))) =
        balances (plug path (node a xk xv xb (node b yk yv yb c))) ∧
      rotateRight (node (node a yk yv yb b) xk xv xb c) =
        node a yk yv yb (node b xk xv xb c) ∧
      plug [] (rotateRight (node (node a yk yv yb b) xk xv xb c)) =
        node a yk yv yb (node b xk xv xb c) ∧
      (∀ (f : Frame K V) (rest : List (Frame K V)),
        plug (f :: rest) (rotateRight (node (node a yk yv yb b) xk xv xb c)) =
          plug rest (f.fill (node a yk yv yb (node b xk xv xb c)))) ∧
      entries (plug path (rotateRight (node (node a yk yv yb b) xk xv xb c))) =
        entries (plug path (node (node a yk yv yb b) xk xv xb c)) ∧
      balances (plug path (rotateRight (node (node a yk yv yb b) xk xv xb c))) =
        balances (plug path (node (node a yk yv yb b) xk xv xb c)) := by
  refine ⟨rfl, rfl, fun _ _ => rfl, ?_, ?_, rfl, rfl, fun _ _ => rfl, ?_, ?_⟩
  · simp [entries_plug]
  · exact balances_plug path _ _ (by simp [rotateLeft, balances])
  · simp [entries_plug]
  · exact balances_plug path _ _ (by simp [rotateRight, balances])

/-- C11: evaluation at two failing inputs. After insert(1), insert(2), insert(3), insert(4),
insert(5), remove(1), insert(1), remove(5) node 4 stores the balance 1 and has no right
child; remove(3) makes that balance 2 and reads the balance of the absent right child.
After insert(1), insert(2), insert(4), insert(5), remove(1), insert(1), insert(3), remove(1),
remove(4) node 3 stores -1 and its left child 2 stores 1 without a right child; remove(5)
makes the balance of node 3 reach -2, enters the zig-zag branch and reads the balance of the
absent grandchild. -/
theorem remove_reads_null_on_reachable_tree :
    runOps [Op.ins 1 0, Op.ins 2 0, Op.ins 3 0, Op.ins 4 0, Op.ins 5 0, Op.rem 1,
        Op.ins 1 0, Op.rem 5] nil =
        some (node (node nil 1 0 0 nil) 2 0 0 (node (node nil 3 0 0 nil) 4 0 1 nil)) ∧
      remove (node (node nil 1 0 0 nil) 2 0 0 (node (node nil 3 0 0 nil) 4 0 1 nil) :
        AVLNode Nat Nat) 3 = none ∧
      runOps [Op.ins 1 0, Op.ins 2 0, Op.ins 4 0, Op.ins 5 0, Op.rem 1, Op.ins 1 0,
        Op.ins 3 0, Op.rem 1, Op.rem 4] nil =
        some (node (node nil 2 0 1 nil) 3 0 (-1) (node nil 5 0 0 nil)) ∧
      remove (node (node nil 2 0 1 nil) 3 0 (-1) (node nil 5 0 0 nil) :
        AVLNode Nat Nat) 5 = none ∧
      runOps [Op.ins 1 0, Op.ins 2 0, Op.ins 3 0, Op.ins 4 0, Op.ins 5 0, Op.rem 1,
        Op.ins 1 0, Op.rem 5, Op.rem 3] (nil : AVLNode Nat Nat) = none := by
  refine ⟨by decide, by decide, by decide, by decide, by decide⟩

/-! ## The node that `remove` unlinks -/

theorem remove_eq_removeAt [LinearOrder K] (t : AVLNode K V) (k : K)
    (p : List (Frame K V)) (c : AVLNode K V) (h : unlinkTarget t k = some (p, c)) :
    remove t k = removeAt p c := by
  unfold unlinkTarget at h
  unfold remove
  rcases hd : internalFind t k with ⟨path, c0⟩
  rw [hd] at h
  cases c0 with
  | nil => simp at h
  | node l key v b r =>
    simp only at h ⊢
    split_ifs at h ⊢ with h2
    · rcases hpd : predecessor l with ⟨inner, pc⟩
      rw [hpd] at h
      cases pc with
      | nil => simp at h
      | node pl pk pv pb pr =>
        simp only [Option.some.injEq, Prod.mk.injEq] at h
        simp only [← h.1, ← h.2]
    · simp only [Option.some.injEq, Prod.mk.injEq] at h
      simp only [← h.1, ← h.2]

theorem unlinkTarget_safe [LinearOrder K] (t : AVLNode K V) (k : K)
    (p : List (Frame K V)) (c : AVLNode K V) (hb : Balanced t)
    (h : unlinkTarget t k = some (p, c)) :
    (getLeft c = nil ∨ getRight c = nil) ∧ ∀ f ∈ p, SafeFrame f := by
  have hd := descend_balanced k t [] trivial hb
  unfold unlinkTarget internalFind at h
  rcases hdes : descend k t [] with ⟨path, c0⟩
  rw [hdes] at hd h
  simp only at hd h
  obtain ⟨hp, hc⟩ := hd
  have hsp := safe_of_balancedPath path _ hp
  cases c0 with
  | nil => simp at h
  | node l key v0 b r =>
    simp only at h
    split_ifs at h with h2
    · have hc' := hc
      simp only [Balanced] at hc'
      obtain ⟨hl, hr, hbal, hlo, hhi⟩ := hc'
      have hin := rightmost_balanced l [] trivial hl
      have hright := (rightmost_spec l []).2.1
      unfold predecessor at h
      rcases hpd : rightmost l [] with ⟨inner, pc⟩
      rw [hpd] at hin hright h
      simp only at hin hright h
      cases pc with
      | nil => simp at h
      | node pl pk pv pb pr =>
        simp only [nodeSwap, baseNodeSwap, Option.some.injEq, Prod.mk.injEq] at h
        obtain ⟨rfl, rfl⟩ := h
        refine ⟨Or.inr (by simpa [getRight] using hright), ?_⟩
        intro f hf
        rcases List.mem_append.mp hf with hf | hf
        · exact safe_of_balancedPath inner _ hin f hf
        · rcases List.mem_cons.mp hf with rfl | hf
          · have hfr : BalancedPath (⟨Side.left, key, v0, b, r⟩ :: path) (height l) := by
              simp only [BalancedPath]
              exact ⟨hr, hlo, hhi, hbal, by simpa [height] using hp⟩
            have hsf := safe_of_balancedPath _ _ hfr _ (List.mem_cons_self _ _)
            simpa [SafeFrame] using hsf
          · exact hsp f hf
    · simp only [Option.some.injEq, Prod.mk.injEq] at h
      obtain ⟨rfl, rfl⟩ := h
      refine ⟨?_, hsp⟩
      cases l <;> cases r <;> simp [isNil, getLeft, getRight] at h2 ⊢

/-- C18: on a balanced tree a single `remove` reads through no null pointer. If every stored
balance of the tree equals height(right) - height(left) and lies in {-1,0,1}, then
`remove(k)` returns; the node that is unlinked has at most one child; and every ancestor the
fix-up walk can reach has its stored balance in {-1,0,1}, has the child on the heavy side
when the removal drives its balance to -2 or +2, and that child has the grandchild the
zig-zag branch lifts when its own balance leans the other way. The ordering of the keys is
not needed for this. -/
theorem remove_reads_no_null [LinearOrder K] (t : AVLNode K V) (k : K) (hb : Balanced t) :
    (∃ t', remove t k = some t') ∧
      ∀ p c, unlinkTarget t k = some (p, c) →
        remove t k = removeAt p c ∧ (getLeft c = nil ∨ getRight c = nil) ∧
          ∀ f ∈ p, SafeFrame f :=
  ⟨remove_completes t k hb, fun p c h =>
    ⟨remove_eq_removeAt t k p c h, (unlinkTarget_safe t k p c hb h).1,
      (unlinkTarget_safe t k p c hb h).2⟩⟩

theorem remove_reads_no_null_witness :
    Balanced sampleTree ∧ (∃ t', remove sampleTree 2 = some t') ∧
      unlinkTarget sampleTree 2 =
        some ([⟨Side.left, 1, 10, 0, node nil 3 30 0 nil⟩], node nil 2 20 0 nil) :=
  ⟨by simp [sampleTree, Balanced, height],
    (remove_reads_no_null sampleTree 2 (by simp [sampleTree, Balanced, height])).1, rfl⟩

/-! ## Height bound -/

theorem fib_le_size (t : AVLNode K V) (hb : Balanced t) :
    Nat.fib (height t + 2) ≤ size t + 1 := by
  induction t with
  | nil => simp [height, size]
  | node l k v b r ihl ihr =>
    simp only [Balanced] at hb
    obtain ⟨hl, hr, hbal, hlo, hhi⟩ := hb
    have h1 := ihl hl
    have h2 := ihr hr
    simp only [height, size]
    rcases Nat.le_total (height r) (height l) with hle | hle
    · have hm : 1 + max (height l) (height r) + 2 = (height l + 1) + 2 := by omega
      rw [hm, Nat.fib_add_two]
      have h3 : Nat.fib (height l + 1) ≤ Nat.fib (height r + 2) :=
        Nat.fib_mono (by omega)
      have h4 : Nat.fib (height l + 1 + 1) = Nat.fib (height l + 2) := rfl
      omega
    · have hm : 1 + max (height l) (height r) + 2 = (height r + 1) + 2 := by omega
      rw [hm, Nat.fib_add_two]
      have h3 : Nat.fib (height r + 1) ≤ Nat.fib (height l + 2) :=
        Nat.fib_mono (by omega)
      have h4 : Nat.fib (height r + 1 + 1) = Nat.fib (height r + 2) := rfl
      omega

theorem foldl_insert_balanced [LinearOrder K] (kvs : List (K × V)) :
    ∀ t : AVLNode K V, Balanced t →
      Balanced (kvs.foldl (fun t kv => insert t kv.1 kv.2) t) := by
  induction kvs with
  | nil => intro t hb; simpa using hb
  | cons kv rest ih =>
    intro t hb
    simp only [List.foldl_cons]
    exact ih _ (insert_balanced t kv.1 kv.2 hb)

theorem insertAll_balanced [LinearOrder K] (kvs : List (K × V)) :
    Balanced (insertAll kvs) :=
  foldl_insert_balanced kvs nil trivial

theorem two_pow_lt_fib : 2 ^ 64 < Nat.fib 94 := by
  norm_num [Nat.fib_add_two]

set_option exponentiation.threshold 4096 in
theorem pow_le_fib_pow : ∀ h < 92, 2 ^ (25 * h) ≤ (Nat.fib (h + 2) + 1) ^ 36 := by
  decide

theorem log_bound_of_pow (h n : Nat) (hn : 2 ^ (25 * h) ≤ (n + 2) ^ 36) :
    (h : ℝ) ≤ 1.44 * Real.logb 2 ((n : ℝ) + 2) := by
  have hR : ((2 : ℝ)) ^ (25 * h) ≤ ((n : ℝ) + 2) ^ 36 := by exact_mod_cast hn
  have hpos : (0 : ℝ) < (2 : ℝ) ^ (25 * h) := by positivity
  have hlog := Real.logb_le_logb_of_le (b := 2) (by norm_num) hpos hR
  rw [Real.logb_pow, Real.logb_pow, Real.logb_self_eq_one (by norm_num)] at hlog
  push_cast at hlog
  norm_num at hlog ⊢
  linarith

/-- C14: height bound for insert-built trees. For the tree that any list of `insert` calls
builds from the empty tree, with n nodes and height h: fib(h+2) ≤ n + 1, that is
n ≥ fib(h+2) - 1 with fib(1) = fib(2) = 1; and h ≤ 1.44 * log2(n + 2) for every such tree
of fewer than 2^64 nodes (in integers, 2^(25 h) ≤ (n + 2)^36). -/
theorem insert_built_height_bound [LinearOrder K] (kvs : List (K × V)) :
    Nat.fib (height (insertAll kvs) + 2) ≤ size (insertAll kvs) + 1 ∧
      (size (insertAll kvs) < 2 ^ 64 →
        2 ^ (25 * height (insertAll kvs)) ≤ (size (insertAll kvs) + 2) ^ 36 ∧
        (height (insertAll kvs) : ℝ) ≤
          1.44 * Real.logb 2 ((size (insertAll kvs) : ℝ) + 2)) := by
  have hfib := fib_le_size (insertAll kvs) (insertAll_balanced kvs)
  refine ⟨hfib, fun hlt => ?_⟩
  have hh : height (insertAll kvs) < 92 := by
    by_contra hge
    have hmono : Nat.fib 94 ≤ Nat.fib (height (insertAll kvs) + 2) :=
      Nat.fib_mono (by omega)
    have := two_pow_lt_fib
    omega
  have hpow : 2 ^ (25 * height (insertAll kvs)) ≤ (size (insertAll kvs) + 2) ^ 36 :=
    le_trans (pow_le_fib_pow _ hh) (Nat.pow_le_pow_left (by omega) 36)
  exact ⟨hpow, log_bound_of_pow _ _ hpow⟩

theorem insert_built_height_bound_witness :
    size (insertAll [(1, 0), (2, 0), (3, 0), (4, 0)] : AVLNode Nat Nat) < 2 ^ 64 ∧
      Nat.fib (height (insertAll [(1, 0), (2, 0), (3, 0), (4, 0)] : AVLNode Nat Nat) + 2) ≤
        size (insertAll [(1, 0), (2, 0), (3, 0), (4, 0)] : AVLNode Nat Nat) + 1 ∧
      (height (insertAll [(1, 0), (2, 0), (3, 0), (4, 0)] : AVLNode Nat Nat) : ℝ) ≤
        1.44 * Real.logb 2
          ((size (insertAll [(1, 0), (2, 0), (3, 0), (4, 0)] : AVLNode Nat Nat) : ℝ) + 2) :=
  ⟨by decide, (insert_built_height_bound [(1, 0), (2, 0), (3, 0), (4, 0)]).1,
    ((insert_built_height_bound [(1, 0), (2, 0), (3, 0), (4, 0)]).2 (by decide)).2⟩

end AVLTree
